import Mathlib

/-!
Verification of the OrderlyID codec: a typed, time-sortable identifier of the
form `pfx_payload[-checksum]` backed by a 160-bit body
`| 48b time | 8b flags | 16b tenant | 12b seq | 16b shard | 60b random |`.

Strings are modelled as lists of byte values (`List Nat`, each element < 256).
Machine-integer truncations of the Go source (`byte(x)`, `uint32` wraparound in
the Base32 accumulators, `uint64` conversion of a negative `int64`) are modelled
with explicit `% 2^w` arithmetic.  Functions that can panic in the source
(`checksum4Base`, `payloadTo5bits`, `b32encode`, `unpack`) return `Option`,
`none` standing for the panic.
-/

namespace Orderly

/-- The Crockford-style lowercase alphabet `0123456789abcdefghjkmnpqrstvwxyz`
as byte values (source: `alpha`). -/
def alpha : List Nat :=
  [48, 49, 50, 51, 52, 53, 54, 55, 56, 57,
   97, 98, 99, 100, 101, 102, 103, 104, 106, 107,
   109, 110, 112, 113, 114, 115, 116, 118, 119, 120, 121, 122]

/-- `alpha[v]` for a 5-bit value `v` (the source indexes the `alpha` array). -/
def alphaGet (v : Nat) : Nat := alpha.getD v 0

/-- ASCII lowercasing of one byte (`strings.ToLower` on ASCII input). -/
def toLowerByte (b : Nat) : Nat := if 65 ≤ b ∧ b ≤ 90 then b + 32 else b

/-- The decode table `alphaRev`: value of a byte, `255` when invalid.  The
source builds the table in `init`: every alphabet byte and its uppercase form
map to the byte's index, and the ambiguous glyphs fold as
`i`/`I`,`l`/`L` ↦ value of `1`, `o`/`O` ↦ value of `0`, `u`/`U` ↦ value of
`v` (= 27). -/
def alphaRev (b : Nat) : Nat :=
  let lb := toLowerByte b
  if lb = 105 ∨ lb = 108 then 1
  else if lb = 111 then 0
  else if lb = 117 then 27
  else
    match alpha.findIdx? (fun a => a == lb) with
    | some i => i
    | none => 255

/-- 2020-01-01T00:00:00Z in Unix milliseconds (source: `epoch2020`). -/
def epoch2020 : Int := 1577836800000

/-- `pack` (source lines 217-247): big-endian layout
`| 48b time | 8b flags | 16b tenant | 12b seq | 16b shard | 60b random |`.
`byte(x >> k)` is `x / 2^k % 256`; nibble merges `a<<4 | b` with disjoint
nibbles are written `a*16 + b`. -/
def pack (ms flags tenant seq12 shard random60 : Nat) : List Nat :=
  [ms / 2 ^ 40 % 256, ms / 2 ^ 32 % 256, ms / 2 ^ 24 % 256,
   ms / 2 ^ 16 % 256, ms / 2 ^ 8 % 256, ms % 256,
   flags,
   tenant / 256 % 256, tenant % 256,
   seq12 / 16 % 256, seq12 % 16 * 16 + shard / 4096 % 16,
   shard / 16 % 256, shard % 16 * 16 + random60 / 2 ^ 56 % 16,
   random60 / 2 ^ 48 % 256, random60 / 2 ^ 40 % 256, random60 / 2 ^ 32 % 256,
   random60 / 2 ^ 24 % 256, random60 / 2 ^ 16 % 256, random60 / 2 ^ 8 % 256,
   random60 % 256]

/-- `unpack` (source lines 249-260); `none` models the panic on a slice whose
length is not 20.  On bytes (< 256) the nibble extractions
`(in[k] & 0xF0) >> 4` and `in[k] & 0x0F` are `/ 16 % 16` and `% 16`. -/
def unpack (l : List Nat) : Option (Nat × Nat × Nat × Nat × Nat × Nat) :=
  match l with
  | [i0, i1, i2, i3, i4, i5, i6, i7, i8, i9,
     i10, i11, i12, i13, i14, i15, i16, i17, i18, i19] =>
    some (i0 * 2 ^ 40 + i1 * 2 ^ 32 + i2 * 2 ^ 24 + i3 * 2 ^ 16 + i4 * 2 ^ 8 + i5,
      i6,
      i7 * 256 + i8,
      i9 * 16 + i10 / 16 % 16,
      i10 % 16 * 4096 + i11 * 16 + i12 / 16 % 16,
      i12 % 16 * 2 ^ 56 + i13 * 2 ^ 48 + i14 * 2 ^ 40 + i15 * 2 ^ 32 +
        i16 * 2 ^ 24 + i17 * 2 ^ 16 + i18 * 2 ^ 8 + i19)
  | _ => none

/-- Helper shared by the claims: `unpack` is a left inverse of `pack` on
well-masked fields. -/
theorem unpack_pack_eq (ms flags tenant seq12 shard random60 : Nat)
    (hms : ms < 2 ^ 48) (hf : flags < 2 ^ 8) (ht : tenant < 2 ^ 16)
    (hs : seq12 < 2 ^ 12) (hsh : shard < 2 ^ 16) (hr : random60 < 2 ^ 60) :
    unpack (pack ms flags tenant seq12 shard random60) =
      some (ms, flags, tenant, seq12, shard, random60) := by
  simp only [pack, unpack, Option.some.injEq, Prod.mk.injEq, and_true, true_and]
  omega

/-- Claim C2: Bit-packer round-trip: for every field tuple with
`time_ms < 2^48`, 8-bit `flags`, 16-bit `tenant` and `shard`, `seq < 2^12`
and `random < 2^60`, `unpack (pack …)` returns exactly that tuple. -/
theorem packer_round_trip (ms flags tenant seq12 shard random60 : Nat)
    (hms : ms < 2 ^ 48) (hf : flags < 2 ^ 8) (ht : tenant < 2 ^ 16)
    (hs : seq12 < 2 ^ 12) (hsh : shard < 2 ^ 16) (hr : random60 < 2 ^ 60) :
    unpack (pack ms flags tenant seq12 shard random60) =
      some (ms, flags, tenant, seq12, shard, random60) := by
  simp only [pack, unpack, Option.some.injEq, Prod.mk.injEq, and_true, true_and]
  omega

/-- Witness for C2 at a concrete in-range tuple. -/
theorem packer_round_trip_witness :
    unpack (pack 123456789 7 12 100 34 987654321) =
      some (123456789, 7, 12, 100, 34, 987654321) :=
  packer_round_trip 123456789 7 12 100 34 987654321
    (by norm_num) (by norm_num) (by norm_num) (by norm_num) (by norm_num)
    (by norm_num)

/-- Error kinds of `Parse` and `b32decode`; each distinct error string of the
source is one constructor. -/
inductive Err where
  /-- "checksum must be 4 chars" -/
  | checksumLen
  /-- "checksum mismatch" -/
  | checksumMismatch
  /-- "missing prefix separator" -/
  | missingSep
  /-- "invalid prefix" -/
  | invalidPfx
  /-- "payload must be 32 chars" -/
  | payloadLen
  /-- "invalid base32 at pos j" (the pre-check loop in `Parse`) -/
  | invalidCharAt (j : Nat)
  /-- "base32 length must be 32" -/
  | b32Len
  /-- "invalid base32 at i" (inside `b32decode`) -/
  | b32InvalidAt (i : Nat)
  /-- "invalid base32 payload" -/
  | b32Bad
deriving DecidableEq

/-- The inner `for bits >= 5` emission loop of `b32encode`, with a structural
fuel argument (the loop runs at most `bits` times since `bits` shrinks by 5
each iteration): emits `(acc >> bits) & 31` groups MSB-first and returns the
remaining bit count. -/
def b32flushGo (fuel acc bits : Nat) : List Nat × Nat :=
  match fuel with
  | 0 => ([], bits)
  | fuel' + 1 =>
    if 5 ≤ bits then
      let r := b32flushGo fuel' acc (bits - 5)
      (acc / 2 ^ (bits - 5) % 32 :: r.1, r.2)
    else ([], bits)

/-- The emission loop at full fuel. -/
def b32flush (acc bits : Nat) : List Nat × Nat := b32flushGo bits acc bits

/-- Byte loop of `b32encode` (source lines 262-286): the `uint32` accumulator
`acc = (acc << 8) | b` is `(acc * 256 + b) % 2^32`; the trailing partial-group
branch (`bits != 0`) is dead for 20-byte input but modelled faithfully. -/
def b32encodeAux : List Nat → Nat → Nat → List Nat
  | [], acc, bits => if bits ≠ 0 then [acc * 2 ^ (5 - bits) % 32] else []
  | b :: rest, acc, bits =>
    let acc2 := (acc * 256 + b) % 4294967296
    let f := b32flush acc2 (bits + 8)
    f.1 ++ b32encodeAux rest acc2 f.2

/-- `b32encode` maps the emitted 5-bit groups through `alpha`; `none` models
the panic on input whose length is not 20. -/
def b32encode (src : List Nat) : Option (List Nat) :=
  if src.length = 20 then some ((b32encodeAux src 0 0).map alphaGet) else none

/-- Character loop of `b32decode` (source lines 288-313), also tracking the
position `i` for the invalid-symbol error and returning the final leftover
bit count; `acc = (acc << 5) | v` is `(acc * 32 + v) % 2^32`. -/
def b32decodeAux : List Nat → Nat → Nat → Nat → Except Nat (List Nat × Nat)
  | [], _, _, bits => .ok ([], bits)
  | c :: rest, i, acc, bits =>
    let v := alphaRev c
    if v = 255 then .error i
    else
      let acc2 := (acc * 32 + v) % 4294967296
      let bits2 := bits + 5
      if 8 ≤ bits2 then
        match b32decodeAux rest (i + 1) acc2 (bits2 - 8) with
        | .error e => .error e
        | .ok (l, bf) => .ok (acc2 / 2 ^ (bits2 - 8) % 256 :: l, bf)
      else
        b32decodeAux rest (i + 1) acc2 bits2

/-- `b32decode` (source lines 288-313): length must be 32, every symbol must
be in the decode table, and the output must resolve to exactly 20 bytes with
no leftover bits. -/
def b32decode (s : List Nat) : Except Err (List Nat) :=
  if s.length ≠ 32 then .error .b32Len
  else
    match b32decodeAux s 0 0 0 with
    | .error i => .error (.b32InvalidAt i)
    | .ok (out, bits) =>
      if out.length ≠ 20 ∨ bits ≠ 0 then .error .b32Bad else .ok out

/-- The `uint32` truncation commutes with the byte-shift accumulation. -/
theorem collapse_acc256 (a b : Nat) :
    (a % 4294967296 * 256 + b) % 4294967296 = (a * 256 + b) % 4294967296 := by
  omega

/-- The `uint32` truncation commutes with the 5-bit-shift accumulation. -/
theorem collapse_acc32 (a b : Nat) :
    (a % 4294967296 * 32 + b) % 4294967296 = (a * 32 + b) % 4294967296 := by
  omega

/-- Decoding inverts the alphabet on 5-bit values. -/
theorem alphaRev_alphaGet : ∀ d, d < 32 → alphaRev (alphaGet d) = d := by decide

/-- `alphaRev ∘ alphaGet` is the identity on residues mod 32. -/
theorem alphaRev_alphaGet_mod (x : Nat) :
    alphaRev (alphaGet (x % 32)) = x % 32 :=
  alphaRev_alphaGet _ (Nat.mod_lt _ (by norm_num))

/-- A residue mod 32 is never the invalid-symbol marker 255. -/
theorem mod32_ne_255 (x : Nat) : (x % 32 = 255) = False := by
  simp only [eq_iff_iff, iff_false]
  omega

/-- Normal form of the Base32 emission loop on a 20-byte input: the 32
emitted 5-bit groups, MSB-first.  The pattern repeats every 5 bytes / 8
groups because 40 bits flush evenly. -/
theorem b32encodeAux_nf
    (b0 b1 b2 b3 b4 b5 b6 b7 b8 b9 b10 b11 b12 b13 b14 b15 b16 b17 b18 b19 : Nat)
    (h0 : b0 < 256) (h1 : b1 < 256) (h2 : b2 < 256) (h3 : b3 < 256) (h4 : b4 < 256)
    (h5 : b5 < 256) (h6 : b6 < 256) (h7 : b7 < 256) (h8 : b8 < 256) (h9 : b9 < 256)
    (h10 : b10 < 256) (h11 : b11 < 256) (h12 : b12 < 256) (h13 : b13 < 256)
    (h14 : b14 < 256) (h15 : b15 < 256) (h16 : b16 < 256) (h17 : b17 < 256)
    (h18 : b18 < 256) (h19 : b19 < 256) :
    b32encodeAux [b0, b1, b2, b3, b4, b5, b6, b7, b8, b9,
                  b10, b11, b12, b13, b14, b15, b16, b17, b18, b19] 0 0 =
      [b0 / 8 % 32, (b0 % 8 * 4 + b1 / 64) % 32, b1 / 2 % 32,
       (b1 % 2 * 16 + b2 / 16) % 32, (b2 % 16 * 2 + b3 / 128) % 32,
       b3 / 4 % 32, (b3 % 4 * 8 + b4 / 32) % 32, b4 % 32,
       b5 / 8 % 32, (b5 % 8 * 4 + b6 / 64) % 32, b6 / 2 % 32,
       (b6 % 2 * 16 + b7 / 16) % 32, (b7 % 16 * 2 + b8 / 128) % 32,
       b8 / 4 % 32, (b8 % 4 * 8 + b9 / 32) % 32, b9 % 32,
       b10 / 8 % 32, (b10 % 8 * 4 + b11 / 64) % 32, b11 / 2 % 32,
       (b11 % 2 * 16 + b12 / 16) % 32, (b12 % 16 * 2 + b13 / 128) % 32,
       b13 / 4 % 32, (b13 % 4 * 8 + b14 / 32) % 32, b14 % 32,
       b15 / 8 % 32, (b15 % 8 * 4 + b16 / 64) % 32, b16 / 2 % 32,
       (b16 % 2 * 16 + b17 / 16) % 32, (b17 % 16 * 2 + b18 / 128) % 32,
       b18 / 4 % 32, (b18 % 4 * 8 + b19 / 32) % 32, b19 % 32] := by
  simp [b32encodeAux, b32flush, b32flushGo, collapse_acc256]
  omega

set_option maxHeartbeats 1600000 in
/-- Normal form of `b32decode` on the alphabet image of 32 arbitrary 5-bit
groups: it always succeeds and reassembles the 20 bytes, 8 symbols / 5 bytes
per block. -/
theorem b32decode_nf (x1 x2 x3 x4 x5 x6 x7 x8 x9 x10 x11 x12 x13 x14 x15 x16 x17 x18 x19 x20 x21 x22 x23 x24 x25 x26 x27 x28 x29 x30 x31 x32 : Nat) :
    b32decode [alphaGet (x1 % 32), alphaGet (x2 % 32), alphaGet (x3 % 32), alphaGet (x4 % 32),
     alphaGet (x5 % 32), alphaGet (x6 % 32), alphaGet (x7 % 32), alphaGet (x8 % 32), alphaGet
     (x9 % 32), alphaGet (x10 % 32), alphaGet (x11 % 32), alphaGet (x12 % 32), alphaGet (x13 %
     32), alphaGet (x14 % 32), alphaGet (x15 % 32), alphaGet (x16 % 32), alphaGet (x17 % 32),
     alphaGet (x18 % 32), alphaGet (x19 % 32), alphaGet (x20 % 32), alphaGet (x21 % 32),
     alphaGet (x22 % 32), alphaGet (x23 % 32), alphaGet (x24 % 32), alphaGet (x25 % 32),
     alphaGet (x26 % 32), alphaGet (x27 % 32), alphaGet (x28 % 32), alphaGet (x29 % 32),
     alphaGet (x30 % 32), alphaGet (x31 % 32), alphaGet (x32 % 32)] = .ok [(x1 % 32) * 8 + (x2
     % 32) / 4, (x2 % 32) % 4 * 64 + (x3 % 32) * 2 + (x4 % 32) / 16, (x4 % 32) % 16 * 16 + (x5
     % 32) / 2, (x5 % 32) % 2 * 128 + (x6 % 32) * 4 + (x7 % 32) / 8, (x7 % 32) % 8 * 32 + (x8 %
     32), (x9 % 32) * 8 + (x10 % 32) / 4, (x10 % 32) % 4 * 64 + (x11 % 32) * 2 + (x12 % 32) /
     16, (x12 % 32) % 16 * 16 + (x13 % 32) / 2, (x13 % 32) % 2 * 128 + (x14 % 32) * 4 + (x15 %
     32) / 8, (x15 % 32) % 8 * 32 + (x16 % 32), (x17 % 32) * 8 + (x18 % 32) / 4, (x18 % 32) % 4
     * 64 + (x19 % 32) * 2 + (x20 % 32) / 16, (x20 % 32) % 16 * 16 + (x21 % 32) / 2, (x21 % 32)
     % 2 * 128 + (x22 % 32) * 4 + (x23 % 32) / 8, (x23 % 32) % 8 * 32 + (x24 % 32), (x25 % 32)
     * 8 + (x26 % 32) / 4, (x26 % 32) % 4 * 64 + (x27 % 32) * 2 + (x28 % 32) / 16, (x28 % 32) %
     16 * 16 + (x29 % 32) / 2, (x29 % 32) % 2 * 128 + (x30 % 32) * 4 + (x31 % 32) / 8, (x31 %
     32) % 8 * 32 + (x32 % 32)] := by
  simp [b32decode, b32decodeAux, alphaRev_alphaGet_mod, mod32_ne_255, collapse_acc32]
  omega

set_option maxHeartbeats 1600000 in
/-- Decoding the alphabet image of a 20-byte body's emitted groups recovers
the body: the core Base32 round-trip. -/
theorem b32_round
    (b0 b1 b2 b3 b4 b5 b6 b7 b8 b9 b10 b11 b12 b13 b14 b15 b16 b17 b18 b19 : Nat)
    (h0 : b0 < 256) (h1 : b1 < 256) (h2 : b2 < 256) (h3 : b3 < 256) (h4 : b4 < 256)
    (h5 : b5 < 256) (h6 : b6 < 256) (h7 : b7 < 256) (h8 : b8 < 256) (h9 : b9 < 256)
    (h10 : b10 < 256) (h11 : b11 < 256) (h12 : b12 < 256) (h13 : b13 < 256)
    (h14 : b14 < 256) (h15 : b15 < 256) (h16 : b16 < 256) (h17 : b17 < 256)
    (h18 : b18 < 256) (h19 : b19 < 256) :
    b32decode ((b32encodeAux [b0, b1, b2, b3, b4, b5, b6, b7, b8, b9,
                  b10, b11, b12, b13, b14, b15, b16, b17, b18, b19] 0 0).map alphaGet) =
      .ok [b0, b1, b2, b3, b4, b5, b6, b7, b8, b9,
           b10, b11, b12, b13, b14, b15, b16, b17, b18, b19] := by
  rw [b32encodeAux_nf b0 b1 b2 b3 b4 b5 b6 b7 b8 b9 b10 b11 b12 b13 b14 b15 b16 b17 b18 b19
    h0 h1 h2 h3 h4 h5 h6 h7 h8 h9 h10 h11 h12 h13 h14 h15 h16 h17 h18 h19]
  simp only [List.map_cons, List.map_nil]
  rw [b32decode_nf]
  simp only [Except.ok.injEq, List.cons.injEq, and_true, true_and]
  omega

/-- Every in-range 5-bit value maps into the alphabet. -/
theorem alphaGet_mem : ∀ d, d < 32 → alphaGet d ∈ alpha := by decide

/-- Every residue mod 32 maps into the alphabet. -/
theorem alphaGet_mod_mem (x : Nat) : alphaGet (x % 32) ∈ alpha :=
  alphaGet_mem _ (Nat.mod_lt _ (by norm_num))

/-- Claim C3: Base32 round-trip and output shape: for every 20-byte input,
`b32encode` produces exactly 32 characters, each drawn from the lowercase
alphabet `0123456789abcdefghjkmnpqrstvwxyz`, and `b32decode` of that string
succeeds and returns the input bytes. -/
theorem base32_shape_round_trip
    (b0 b1 b2 b3 b4 b5 b6 b7 b8 b9 b10 b11 b12 b13 b14 b15 b16 b17 b18 b19 : Nat)
    (h0 : b0 < 256) (h1 : b1 < 256) (h2 : b2 < 256) (h3 : b3 < 256) (h4 : b4 < 256)
    (h5 : b5 < 256) (h6 : b6 < 256) (h7 : b7 < 256) (h8 : b8 < 256) (h9 : b9 < 256)
    (h10 : b10 < 256) (h11 : b11 < 256) (h12 : b12 < 256) (h13 : b13 < 256)
    (h14 : b14 < 256) (h15 : b15 < 256) (h16 : b16 < 256) (h17 : b17 < 256)
    (h18 : b18 < 256) (h19 : b19 < 256) :
    ∃ p, b32encode [b0, b1, b2, b3, b4, b5, b6, b7, b8, b9, b10, b11, b12, b13, b14, b15, b16, b17, b18, b19] = some p ∧
      p.length = 32 ∧ (∀ c ∈ p, c ∈ alpha) ∧
      b32decode p = .ok [b0, b1, b2, b3, b4, b5, b6, b7, b8, b9, b10, b11, b12, b13, b14, b15, b16, b17, b18, b19] := by
  refine ⟨(b32encodeAux [b0, b1, b2, b3, b4, b5, b6, b7, b8, b9, b10, b11, b12, b13, b14, b15, b16, b17, b18, b19] 0 0).map alphaGet,
    by simp [b32encode], ?_, ?_, b32_round b0 b1 b2 b3 b4 b5 b6 b7 b8 b9 b10 b11 b12 b13 b14 b15 b16 b17 b18 b19 h0 h1 h2 h3 h4 h5 h6 h7 h8 h9 h10 h11 h12 h13 h14 h15 h16 h17 h18 h19⟩
  · rw [b32encodeAux_nf b0 b1 b2 b3 b4 b5 b6 b7 b8 b9 b10 b11 b12 b13 b14 b15 b16 b17 b18 b19 h0 h1 h2 h3 h4 h5 h6 h7 h8 h9 h10 h11 h12 h13 h14 h15 h16 h17 h18 h19]
    simp
  · rw [b32encodeAux_nf b0 b1 b2 b3 b4 b5 b6 b7 b8 b9 b10 b11 b12 b13 b14 b15 b16 b17 b18 b19 h0 h1 h2 h3 h4 h5 h6 h7 h8 h9 h10 h11 h12 h13 h14 h15 h16 h17 h18 h19]
    intro c hc
    simp only [List.map_cons, List.map_nil, List.mem_cons, List.not_mem_nil,
      or_false] at hc
    rcases hc with rfl | rfl | rfl | rfl | rfl | rfl | rfl | rfl | rfl | rfl | rfl | rfl | rfl | rfl | rfl | rfl | rfl | rfl | rfl | rfl | rfl | rfl | rfl | rfl | rfl | rfl | rfl | rfl | rfl | rfl | rfl | rfl
    all_goals exact alphaGet_mod_mem _

/-- Witness for C3 at the concrete bytes 0,1,…,19. -/
theorem base32_shape_round_trip_witness :
    ∃ p, b32encode [0, 1, 2, 3, 4, 5, 6, 7, 8, 9,
        10, 11, 12, 13, 14, 15, 16, 17, 18, 19] = some p ∧
      p.length = 32 ∧ (∀ c ∈ p, c ∈ alpha) ∧
      b32decode p = .ok [0, 1, 2, 3, 4, 5, 6, 7, 8, 9,
        10, 11, 12, 13, 14, 15, 16, 17, 18, 19] :=
  base32_shape_round_trip 0 1 2 3 4 5 6 7 8 9 10 11 12 13 14 15 16 17 18 19
    (by norm_num) (by norm_num) (by norm_num) (by norm_num) (by norm_num) (by norm_num) (by norm_num) (by norm_num) (by norm_num) (by norm_num) (by norm_num) (by norm_num) (by norm_num) (by norm_num) (by norm_num) (by norm_num) (by norm_num) (by norm_num) (by norm_num) (by norm_num)

/-- ASCII whitespace recognized by `strings.TrimSpace` on ASCII input. -/
def isSpaceByte (b : Nat) : Bool :=
  b == 9 || b == 10 || b == 11 || b == 12 || b == 13 || b == 32

/-- `strings.TrimSpace`: drop whitespace from both ends. -/
def trimSpace (s : List Nat) : List Nat :=
  ((s.dropWhile isSpaceByte).reverse.dropWhile isSpaceByte).reverse

/-- `strings.IndexByte`: first index of `b`, if any. -/
def indexByte (s : List Nat) (b : Nat) : Option Nat :=
  match s with
  | [] => none
  | c :: rest => if c = b then some 0 else (indexByte rest b).map (· + 1)

/-- `strings.LastIndexByte`: last index of `b`, if any. -/
def lastIndexByte (s : List Nat) (b : Nat) : Option Nat :=
  (indexByte s.reverse b).map (fun k => s.length - 1 - k)

/-- `strings.EqualFold` on ASCII input: case-insensitive equality. -/
def equalFold (a b : List Nat) : Bool := a.map toLowerByte == b.map toLowerByte

/-- `[a-z]` byte. -/
def isLowerByte (b : Nat) : Bool := 97 ≤ b && b ≤ 122

/-- `[0-9]` byte. -/
def isDigitByte (b : Nat) : Bool := 48 ≤ b && b ≤ 57

/-- The prefix pattern `^[a-z][a-z0-9]{1,30}$` (source: `prefixRe`). -/
def pfxOk (p : List Nat) : Bool :=
  match p with
  | [] => false
  | c :: rest =>
    isLowerByte c && decide (1 ≤ rest.length) && decide (rest.length ≤ 30) &&
      rest.all (fun d => isLowerByte d || isDigitByte d)

/-- `hrpExpand` (source lines 350-360): high 3 bits of each byte, a zero
separator, then the low 5 bits of each byte. -/
def hrpExpand (s : List Nat) : List Nat :=
  s.map (fun b => b / 32) ++ [0] ++ s.map (fun b => b % 32)

/-- `payloadTo5bits` (source lines 338-348); `none` models the panic on an
invalid payload character. -/
def payloadTo5bits : List Nat → Option (List Nat)
  | [] => some []
  | b :: rest =>
    if alphaRev b = 255 then none
    else (payloadTo5bits rest).map (fun l => alphaRev b :: l)

/-- One iteration of `bech32Polymod` (source lines 362-384).  `chk` is a
`uint32` that stays below `2^30`: `chk >> 25` is `/ 2^25` and
`(chk & 0x1ffffff) << 5` is `% 2^25 * 32`; the bit tests `(b & 2^k) != 0`
are `b / 2^k % 2 = 1`. -/
def bech32PolymodStep (chk v : Nat) : Nat :=
  let b := chk / 33554432
  let c0 := chk % 33554432 * 32 ^^^ v
  let c1 := if b % 2 = 1 then c0 ^^^ 0x3b6a57b2 else c0
  let c2 := if b / 2 % 2 = 1 then c1 ^^^ 0x26508e6d else c1
  let c3 := if b / 4 % 2 = 1 then c2 ^^^ 0x1ea119fa else c2
  let c4 := if b / 8 % 2 = 1 then c3 ^^^ 0x3d4233dd else c3
  if b / 16 % 2 = 1 then c4 ^^^ 0x2a1462b3 else c4

/-- `bech32Polymod`: left fold of the step over the value sequence, seed 1. -/
def bech32Polymod (values : List Nat) : Nat := values.foldl bech32PolymodStep 1

/-- `checksum4Base` (source lines 316-336): split at the first `_`
(panicking — `none` — if there is none or it is at position 0), lowercase,
HRP-expand the prefix part, append the payload symbol values and four zero
groups, run the polymod, XOR 1, and read the low 20 bits as four alphabet
characters (MSB-first). -/
def checksum4Base (base : List Nat) : Option (List Nat) :=
  match indexByte base 95 with
  | none => none
  | some idx =>
    if idx = 0 then none
    else
      let hrp := (base.take (idx + 1)).map toLowerByte
      let payload := (base.drop (idx + 1)).map toLowerByte
      match payloadTo5bits payload with
      | none => none
      | some vals =>
        let pm := bech32Polymod (hrpExpand hrp ++ vals ++ [0, 0, 0, 0]) ^^^ 1
        some [alphaGet (pm / 32768 % 32), alphaGet (pm / 1024 % 32),
              alphaGet (pm / 32 % 32), alphaGet (pm % 32)]

/-- The record returned by `Parse` (source: `Parsed`).  The Go field
`Prefix` is called `Pfx` here. -/
structure Parsed where
  Pfx : List Nat
  TimeMs : Int
  Flags : Nat
  Tenant : Nat
  Seq : Nat
  Shard : Nat
  Random : Nat
deriving DecidableEq

/-- Result of `Parse`: a record, a typed error, or a Go panic. -/
inductive Outcome where
  | ok (p : Parsed)
  | err (e : Err)
  | panicked
deriving DecidableEq

/-- The validation loop of `Parse` over the payload (source lines 194-198):
index of the first character with no symbol value, if any. -/
def firstInvalidIdx (s : List Nat) : Option Nat :=
  match s with
  | [] => none
  | c :: rest =>
    if alphaRev c = 255 then some 0 else (firstInvalidIdx rest).map (· + 1)

/-- Continuation of `Parse` after the optional checksum suffix has been
split off and verified (source lines 182-213). -/
def parseBase (base : List Nat) : Outcome :=
  match indexByte base 95 with
  | none => .err .missingSep
  | some i =>
    if i = 0 then .err .missingSep
    else
      let pfx := base.take i
      if pfxOk pfx = false then .err .invalidPfx
      else
        let payload := base.drop (i + 1)
        if payload.length ≠ 32 then .err .payloadLen
        else
          match firstInvalidIdx payload with
          | some j => .err (.invalidCharAt j)
          | none =>
            match b32decode payload with
            | .error e => .err e
            | .ok buf =>
              match unpack buf with
              | none => .panicked
              | some (ms, flags, tenant, seq12, shard, random60) =>
                .ok ⟨pfx, (ms : Int) + epoch2020, flags, tenant, seq12, shard,
                  random60⟩

/-- `Parse` (source lines 168-213): trim, split a checksum suffix at the
last `-` (verifying it case-insensitively against `checksum4Base`, which can
panic), then parse `pfx_payload`. -/
def Parse (s0 : List Nat) : Outcome :=
  let s := trimSpace s0
  match lastIndexByte s 45 with
  | some i =>
    let base := s.take i
    let csGiven := s.drop (i + 1)
    if csGiven.length ≠ 4 then .err .checksumLen
    else
      match checksum4Base base with
      | none => .panicked
      | some expected =>
        if equalFold csGiven expected then parseBase base
        else .err .checksumMismatch
  | none => parseBase s

/-- Input fields of `NewFromParts` (source: `Components`).  The Go field
`Prefix` is called `Pfx` here. -/
structure Components where
  Pfx : List Nat
  TimeMs : Int
  Flags : Nat
  Tenant : Nat
  Seq : Nat
  Shard : Nat
  Random60 : Nat

/-- `NewFromParts` (unnamed source file, lines 18-41): validate the prefix
(`none` models the invalid-prefix error and the unreachable panics), clamp
pre-epoch times to 0, mask `Seq` to 12 bits (`& 0x0FFF`) and `Random60` to
60 bits, pack, Base32-encode, and optionally append the checksum. -/
def NewFromParts (c : Components) (withChecksum : Bool) : Option (List Nat) :=
  if pfxOk c.Pfx = false then none
  else
    let msSince2020 : Nat :=
      if epoch2020 ≤ c.TimeMs then (c.TimeMs - epoch2020).toNat else 0
    let body := pack msSince2020 c.Flags c.Tenant (c.Seq % 4096) c.Shard
      (c.Random60 % 2 ^ 60)
    match b32encode body with
    | none => none
    | some payload =>
      let base := c.Pfx ++ 95 :: payload
      if withChecksum then
        match checksum4Base base with
        | none => none
        | some cs => some (base ++ 45 :: cs)
      else some base

/-- The unclamped time value `New` feeds to `pack` (source lines 111-144):
`ms := now - epoch2020` with no pre-epoch guard, then the `uint64(ms)`
conversion wraps a negative `int64` modulo `2^64`. -/
def newBodyMs (nowMs : Int) : Nat := ((nowMs - epoch2020) % (2 ^ 64 : Int)).toNat

/-- The sequence update of `New` (source lines 118-126) as a step on the
process-wide state `(lastMs, seq12)`: `(seq12 + 1) & 0x0FFF` is
`(seq12 + 1) % 4096`. -/
def seqStep (ms : Int) (st : Int × Nat) : Int × Nat :=
  if ms = st.1 then (st.1, (st.2 + 1) % 4096) else (ms, 0)

/-- Claim C7 (code bug): `Parse` is not total on untrusted input.  On the
five-byte string `"-abcd"` the checksum split gives base `""` and suffix
`"abcd"` of length 4, and `Parse` then calls `checksum4Base` on a base with
no `_` separator, which panics instead of returning a typed error. -/
theorem parse_panics_on_dash_abcd : Parse [45, 97, 98, 99, 100] = .panicked := by
  decide

/-- Claim C8 (code bug): `New` does not clamp pre-epoch times.  One
millisecond before the 2020 epoch, `ms := now - epoch2020 = -1` and the
`uint64` conversion wraps, so the 48-bit time field packed into the body is
`2^48 - 1`, not the claimed 0 — while `NewFromParts` does clamp (its output
at `epoch2020 - 1` equals its output at `epoch2020`). -/
theorem new_pre_epoch_wraps :
    newBodyMs (epoch2020 - 1) % 2 ^ 48 = 2 ^ 48 - 1 ∧
    (unpack (pack (newBodyMs (epoch2020 - 1)) 0 0 0 0 0)).map
      (fun f => f.1) = some (2 ^ 48 - 1) ∧
    NewFromParts ⟨[97, 98], epoch2020 - 1, 0, 0, 0, 0, 0⟩ false =
      NewFromParts ⟨[97, 98], epoch2020, 0, 0, 0, 0, 0⟩ false := by
  refine ⟨by decide, by decide, by decide⟩

/-- Claim C9: the sequence generator step: an incoming millisecond equal to
`lastMs` increments the counter mod 4096 (and that value is the seq used);
a different millisecond resets the state to `(ms, 0)`; hence two sequential
same-millisecond steps produce seq values `s` and `(s + 1) % 4096`. -/
theorem seq_step_spec (ms : Int) (st : Int × Nat) :
    (ms = st.1 → seqStep ms st = (st.1, (st.2 + 1) % 4096)) ∧
    (ms ≠ st.1 → seqStep ms st = (ms, 0)) ∧
    (seqStep ms (seqStep ms st)).2 = ((seqStep ms st).2 + 1) % 4096 := by
  refine ⟨fun h => by simp [seqStep, h], fun h => by simp [seqStep, h], ?_⟩
  by_cases h : ms = st.1 <;> simp [seqStep, h]

/-- Witness for C9 at concrete state: same-millisecond increment. -/
theorem seq_step_spec_witness :
    seqStep 5 (5, 7) = (5, (7 + 1) % 4096) ∧ seqStep 6 (5, 7) = (6, 0) :=
  ⟨(seq_step_spec 5 (5, 7)).1 rfl, (seq_step_spec 6 (5, 7)).2.1 (by decide)⟩

/-- `b32decodeAux` only looks at characters through `alphaRev`. -/
theorem b32decodeAux_congr {s t : List Nat}
    (h : List.Forall₂ (fun a b => alphaRev a = alphaRev b) s t) :
    ∀ i acc bits, b32decodeAux s i acc bits = b32decodeAux t i acc bits := by
  induction h with
  | nil => intro i acc bits; rfl
  | cons hab htl ih =>
    intro i acc bits
    simp only [b32decodeAux, hab, ih]

/-- `b32decode` only looks at characters through `alphaRev`. -/
theorem b32decode_congr {s t : List Nat}
    (h : List.Forall₂ (fun a b => alphaRev a = alphaRev b) s t) :
    b32decode s = b32decode t := by
  simp only [b32decode, h.length_eq, b32decodeAux_congr h]

/-- Setting one position to a character with the same symbol value is an
`alphaRev`-congruence. -/
theorem forall2_set (l : List Nat) (j c : Nat)
    (h : alphaRev c = alphaRev (l.getD j 0)) :
    List.Forall₂ (fun a b => alphaRev a = alphaRev b) (l.set j c) l := by
  induction l generalizing j with
  | nil => simp
  | cons x rest ih =>
    cases j with
    | zero =>
      simp only [List.getD_cons_zero] at h
      exact List.Forall₂.cons h
        ((List.forall₂_same).2 (fun y _ => rfl))
    | succ j' =>
      simp only [List.getD_cons_succ] at h
      exact List.Forall₂.cons rfl (ih j' h)

/-- If `b32decodeAux` reports an invalid symbol at absolute position `i`,
the character at relative position `i - i0` really has no symbol value. -/
theorem b32decodeAux_error_pos :
    ∀ (s : List Nat) (i0 acc bits i : Nat),
      b32decodeAux s i0 acc bits = .error i →
      alphaRev (s.getD (i - i0) 0) = 255 ∧ i0 ≤ i := by
  intro s
  induction s with
  | nil => intro i0 acc bits i h; simp [b32decodeAux] at h
  | cons c rest ih =>
    intro i0 acc bits i h
    simp only [b32decodeAux] at h
    by_cases hv : alphaRev c = 255
    · rw [if_pos hv] at h
      cases h
      simpa using hv
    · rw [if_neg hv] at h
      by_cases hb : 8 ≤ bits + 5
      · rw [if_pos hb] at h
        rcases hrec : b32decodeAux rest (i0 + 1) ((acc * 32 + alphaRev c) % 4294967296)
            (bits + 5 - 8) with e | p
        · rw [hrec] at h
          cases h
          have := ih (i0 + 1) ((acc * 32 + alphaRev c) % 4294967296) (bits + 5 - 8) i hrec
          refine ⟨?_, by omega⟩
          have hk : i - i0 = (i - (i0 + 1)) + 1 := by omega
          rw [hk, List.getD_cons_succ]
          exact this.1
        · rw [hrec] at h
          cases h
      · rw [if_neg hb] at h
        have := ih (i0 + 1) ((acc * 32 + alphaRev c) % 4294967296) (bits + 5) i h
        refine ⟨?_, by omega⟩
        have hk : i - i0 = (i - (i0 + 1)) + 1 := by omega
        rw [hk, List.getD_cons_succ]
        exact this.1

/-- Counterexample to C10 as stated: the decoder does fold `u`/`U` to the
value of `v`, but that shared value is 27, not 31 as the claim says. -/
theorem uv_fold_counterexample :
    alphaRev 117 = alphaRev 118 ∧ alphaRev 118 = 27 ∧ ¬ alphaRev 118 = 31 := by
  decide

/-- Claim C10 (amended: the shared symbol value of `u`/`U`/`v` is 27, not
31): the decoder maps `u` and `U` to the value of `v`; replacing an
occurrence of `v` in a payload by `u` or `U` decodes to the same bytes; and
an invalid-symbol error never points at a `u` or `U`. -/
theorem lenient_uv_fold :
    (alphaRev 117 = alphaRev 118 ∧ alphaRev 85 = alphaRev 118 ∧
      alphaRev 118 = 27) ∧
    (∀ (payload : List Nat) (j c : Nat), c = 117 ∨ c = 85 →
      payload.getD j 0 = 118 →
      b32decode (payload.set j c) = b32decode payload) ∧
    (∀ (s : List Nat) (i : Nat), b32decode s = .error (.b32InvalidAt i) →
      s.getD i 0 ≠ 117 ∧ s.getD i 0 ≠ 85) := by
  refine ⟨by decide, ?_, ?_⟩
  · intro payload j c hc hj
    apply b32decode_congr
    apply forall2_set
    rw [hj]
    rcases hc with rfl | rfl <;> decide
  · intro s i h
    simp only [b32decode] at h
    by_cases hl : s.length ≠ 32
    · rw [if_pos hl] at h
      simp at h
    · rw [if_neg hl] at h
      rcases haux : b32decodeAux s 0 0 0 with e | p
      · rw [haux] at h
        have he : e = i := by simpa using h
        subst he
        have hp := b32decodeAux_error_pos s 0 0 0 e haux
        have h255 : alphaRev (s.getD e 0) = 255 := by simpa using hp.1
        constructor
        · intro heq
          rw [heq] at h255
          exact absurd h255 (by decide)
        · intro heq
          rw [heq] at h255
          exact absurd h255 (by decide)
      · rw [haux] at h
        rcases p with ⟨out, bits⟩
        by_cases hbad : out.length ≠ 20 ∨ bits ≠ 0 <;> simp [hbad] at h

/-- Witness for the amended C10: replacing the leading `v` of an all-`v`
payload by `u` decodes identically. -/
theorem lenient_uv_fold_witness :
    b32decode ((List.replicate 32 118).set 0 117) =
      b32decode (List.replicate 32 118) :=
  lenient_uv_fold.2.1 (List.replicate 32 118) 0 117 (Or.inl rfl) (by decide)

/-- The conformance vector's base `order_00myngy59c0003000dfk59mg3e36j3rr`
as bytes. -/
def vecBase : List Nat :=
  [111, 114, 100, 101, 114, 95, 48, 48, 109, 121, 110, 103, 121, 53, 57, 99, 48, 48, 48, 51, 48, 48, 48, 100, 102, 107, 53, 57, 109, 103, 51, 101, 51, 54, 106, 51, 114, 114]

/-- The full conformance vector
`order_00myngy59c0003000dfk59mg3e36j3rr-9xgg`. -/
def vecId : List Nat := vecBase ++ [45, 57, 120, 103, 103]

/-- The field inputs that generate the conformance vector. -/
def vecComponents : Components :=
  ⟨[111, 114, 100, 101, 114], 1757869157707, 0, 12, 0, 13811,
    190998482103373592⟩

/-- The record `Parse` returns for the conformance vector. -/
def vecParsed : Parsed :=
  ⟨[111, 114, 100, 101, 114], 1757869157707, 0, 12, 0, 13811,
    190998482103373592⟩

set_option maxRecDepth 10000 in
/-- Counterexample to C5 as stated: replacing the final character `g` of the
conformance vector by the different character `G` does not make `Parse`
fail — the checksum comparison is case-insensitive, so the tampered string
still parses successfully. -/
theorem known_vector_tamper_G_parses :
    Parse (vecBase ++ [45, 57, 120, 103, 71]) = .ok vecParsed ∧ (71 : Nat) ≠ 103 := by
  refine ⟨by decide, by decide⟩

set_option maxRecDepth 10000 in
/-- Claim C5 (amended: three families of final-character replacements do not
give a checksum mismatch — the uppercase form `G` still parses because the
checksum comparison is case-insensitive, `-` becomes the new checksum
separator and fails with the checksum-length error, and whitespace is
trimmed away and also fails with the checksum-length error): the conformance
vector is generated exactly, its checksum is `9xgg`, its payload decodes,
and every other replacement of the final character fails with a checksum
mismatch. -/
theorem known_vector_conformance :
    (∀ c : Nat, c < 256 → c ≠ 103 → c ≠ 71 → c ≠ 45 → isSpaceByte c = false →
      Parse (vecBase ++ [45, 57, 120, 103, c]) = .err .checksumMismatch) ∧
    NewFromParts vecComponents true = some vecId ∧
    checksum4Base vecBase = some [57, 120, 103, 103] ∧
    b32decode (vecBase.drop 6) =
      .ok [0, 41, 234, 195, 197, 75, 0, 0, 12, 0,
           3, 95, 50, 166, 144, 27, 134, 105, 15, 24] ∧
    (∀ c : Nat, c < 256 → isSpaceByte c = true →
      Parse (vecBase ++ [45, 57, 120, 103, c]) = .err .checksumLen) ∧
    Parse (vecBase ++ [45, 57, 120, 103, 45]) = .err .checksumLen ∧
    Parse (vecBase ++ [45, 57, 120, 103, 71]) = .ok vecParsed := by
  refine ⟨by decide, by decide, by decide, by rfl, by decide, by decide,
    by decide⟩

set_option maxRecDepth 10000 in
/-- Witness for the amended C5: the concrete replacement by `0` fails with a
checksum mismatch. -/
theorem known_vector_conformance_witness :
    Parse (vecBase ++ [45, 57, 120, 103, 48]) = .err .checksumMismatch :=
  known_vector_conformance.1 48 (by decide) (by decide) (by decide) (by decide)
    (by decide)

/-- A prefix byte (lowercase letter or digit) is not whitespace, not `-`,
not `_`, below 256, and fixed by lowercasing. -/
theorem pfxByte_facts (b : Nat) (h : (isLowerByte b || isDigitByte b) = true) :
    isSpaceByte b = false ∧ b ≠ 45 ∧ b ≠ 95 ∧ b < 256 ∧ toLowerByte b = b := by
  simp only [isLowerByte, isDigitByte, Bool.or_eq_true, Bool.and_eq_true,
    decide_eq_true_eq] at h
  refine ⟨?_, by omega, by omega, by omega, ?_⟩
  · simp only [isSpaceByte, Bool.or_eq_false_iff, beq_eq_false_iff_ne]
    omega
  · simp only [toLowerByte, ite_eq_right_iff]
    omega

/-- Every byte of a valid prefix is a lowercase letter or digit. -/
theorem pfxOk_chars (p : List Nat) (h : pfxOk p = true) :
    ∀ b ∈ p, (isLowerByte b || isDigitByte b) = true := by
  match p with
  | [] => simp [pfxOk] at h
  | c :: rest =>
    simp only [pfxOk, Bool.and_eq_true, List.all_eq_true] at h
    obtain ⟨⟨⟨hc, _⟩, _⟩, hall⟩ := h
    intro b hb
    rcases List.mem_cons.1 hb with rfl | hb
    · simp [hc]
    · exact hall b hb

/-- A valid prefix has between 2 and 31 bytes. -/
theorem pfxOk_length (p : List Nat) (h : pfxOk p = true) :
    2 ≤ p.length ∧ p.length ≤ 31 := by
  match p with
  | [] => simp [pfxOk] at h
  | c :: rest =>
    simp only [pfxOk, Bool.and_eq_true, decide_eq_true_eq] at h
    simp only [List.length_cons]
    omega

/-- An alphabet character is not whitespace, not `-`, not `_`, decodes to
its value, and is fixed by lowercasing. -/
theorem alphaGet_facts : ∀ d, d < 32 →
    isSpaceByte (alphaGet d) = false ∧ alphaGet d ≠ 45 ∧ alphaGet d ≠ 95 ∧
      alphaGet d < 256 ∧ toLowerByte (alphaGet d) = alphaGet d ∧
      alphaRev (alphaGet d) ≠ 255 := by
  decide

/-- Every 5-bit group emitted by the flush loop is below 32. -/
theorem b32flushGo_vals : ∀ fuel acc bits, ∀ v ∈ (b32flushGo fuel acc bits).1, v < 32 := by
  intro fuel
  induction fuel with
  | zero => intro acc bits v hv; simp [b32flushGo] at hv
  | succ fuel' ih =>
    intro acc bits v hv
    simp only [b32flushGo] at hv
    by_cases hb : 5 ≤ bits
    · rw [if_pos hb] at hv
      rcases List.mem_cons.1 hv with rfl | hv
      · exact Nat.mod_lt _ (by norm_num)
      · exact ih acc (bits - 5) v hv
    · rw [if_neg hb] at hv
      simp at hv

/-- Every 5-bit group emitted by the encode loop is below 32. -/
theorem b32encodeAux_vals : ∀ (src : List Nat) (acc bits : Nat),
    ∀ v ∈ b32encodeAux src acc bits, v < 32 := by
  intro src
  induction src with
  | nil =>
    intro acc bits v hv
    simp only [b32encodeAux] at hv
    by_cases hb : bits ≠ 0
    · rw [if_pos hb] at hv
      rcases List.mem_cons.1 hv with rfl | hv
      · exact Nat.mod_lt _ (by norm_num)
      · simp at hv
    · rw [if_neg hb] at hv
      simp at hv
  | cons b rest ih =>
    intro acc bits v hv
    simp only [b32encodeAux] at hv
    rcases List.mem_append.1 hv with hv | hv
    · exact b32flushGo_vals _ _ _ v hv
    · exact ih _ _ v hv

/-- A successful `b32decode` implies the input had 32 characters. -/
theorem b32decode_ok_length (s out : List Nat) (h : b32decode s = .ok out) :
    s.length = 32 := by
  by_contra hl
  simp [b32decode, hl] at h

/-- `indexByte` misses a byte absent from the list. -/
theorem indexByte_none (l : List Nat) (b : Nat) (h : ∀ c ∈ l, c ≠ b) :
    indexByte l b = none := by
  induction l with
  | nil => rfl
  | cons c rest ih =>
    simp only [indexByte]
    rw [if_neg (h c (by simp)), ih (fun d hd => h d (by simp [hd]))]
    rfl

/-- `indexByte` on an append whose first part misses the byte. -/
theorem indexByte_append (l1 l2 : List Nat) (b : Nat) (h : ∀ c ∈ l1, c ≠ b) :
    indexByte (l1 ++ l2) b = (indexByte l2 b).map (· + l1.length) := by
  induction l1 with
  | nil => simp
  | cons c rest ih =>
    simp only [List.cons_append, indexByte, List.append_eq]
    rw [if_neg (h c (by simp)), ih (fun d hd => h d (by simp [hd]))]
    rcases indexByte l2 b with _ | k <;> simp <;> omega

/-- `indexByte` finds the separator right after a clean first part. -/
theorem indexByte_sep (l1 l2 : List Nat) (b : Nat) (h : ∀ c ∈ l1, c ≠ b) :
    indexByte (l1 ++ b :: l2) b = some l1.length := by
  rw [indexByte_append l1 (b :: l2) b h]
  have h0 : indexByte (b :: l2) b = some 0 := by simp [indexByte]
  rw [h0]
  simp

/-- `lastIndexByte` misses a byte absent from the list. -/
theorem lastIndexByte_none (l : List Nat) (b : Nat) (h : ∀ c ∈ l, c ≠ b) :
    lastIndexByte l b = none := by
  simp only [lastIndexByte]
  rw [indexByte_none _ _ (fun c hc => h c (List.mem_reverse.1 hc))]
  rfl

/-- `lastIndexByte` finds the separator of `base ++ b :: tail` when neither
part contains the byte. -/
theorem lastIndexByte_sep (base tail : List Nat) (b : Nat)
    (h1 : ∀ c ∈ base, c ≠ b) (h2 : ∀ c ∈ tail, c ≠ b) :
    lastIndexByte (base ++ b :: tail) b = some base.length := by
  simp only [lastIndexByte]
  rw [show (base ++ b :: tail).reverse = tail.reverse ++ b :: base.reverse by simp]
  rw [indexByte_append _ _ _ (fun c hc => h2 c (List.mem_reverse.1 hc))]
  have h0 : indexByte (b :: base.reverse) b = some 0 := by simp [indexByte]
  rw [h0]
  simp only [Option.map_some', Option.some.injEq, List.length_append,
    List.length_cons, List.length_reverse]
  omega

/-- `dropWhile` is the identity when no byte satisfies the predicate. -/
theorem dropWhile_no (p : Nat → Bool) (l : List Nat) (h : ∀ c ∈ l, p c = false) :
    l.dropWhile p = l := by
  cases l with
  | nil => rfl
  | cons c rest => simp [List.dropWhile_cons, h c (by simp)]

/-- `trimSpace` is the identity on whitespace-free strings. -/
theorem trimSpace_no (l : List Nat) (h : ∀ c ∈ l, isSpaceByte c = false) :
    trimSpace l = l := by
  simp only [trimSpace]
  rw [dropWhile_no _ _ h]
  rw [dropWhile_no _ _ (fun c hc => h c (List.mem_reverse.1 hc))]
  exact l.reverse_reverse

/-- Taking past an appended singleton separator. -/
theorem take_sep (l1 l2 : List Nat) (b : Nat) :
    (l1 ++ b :: l2).take l1.length = l1 :=
  List.take_left l1 (b :: l2)

/-- Dropping through an appended singleton separator. -/
theorem drop_sep (l1 l2 : List Nat) (b : Nat) :
    (l1 ++ b :: l2).drop (l1.length + 1) = l2 := by
  have h : l1 ++ b :: l2 = (l1 ++ [b]) ++ l2 := by simp
  rw [h]
  have hl : l1.length + 1 = (l1 ++ [b]).length := by simp
  rw [hl, List.drop_left]

/-- `equalFold` is reflexive. -/
theorem equalFold_refl (l : List Nat) : equalFold l l = true := by
  simp [equalFold]

/-- `firstInvalidIdx` finds nothing in a fully valid payload. -/
theorem firstInvalidIdx_none (l : List Nat) (h : ∀ c ∈ l, alphaRev c ≠ 255) :
    firstInvalidIdx l = none := by
  induction l with
  | nil => rfl
  | cons c rest ih =>
    simp only [firstInvalidIdx]
    rw [if_neg (h c (by simp)), ih (fun d hd => h d (by simp [hd]))]
    rfl

/-- Lowercasing is idempotent. -/
theorem toLowerByte_idem (b : Nat) : toLowerByte (toLowerByte b) = toLowerByte b := by
  unfold toLowerByte
  by_cases h : 65 ≤ b ∧ b ≤ 90
  · rw [if_pos h, if_neg (by omega)]
  · rw [if_neg h, if_neg h]

/-- `alphaRev` is invariant under lowercasing. -/
theorem alphaRev_toLower (b : Nat) : alphaRev (toLowerByte b) = alphaRev b := by
  simp only [alphaRev, toLowerByte_idem]

/-- `payloadTo5bits` succeeds on a fully valid payload. -/
theorem payloadTo5bits_some (l : List Nat) (h : ∀ c ∈ l, alphaRev c ≠ 255) :
    ∃ vals, payloadTo5bits l = some vals := by
  induction l with
  | nil => exact ⟨[], rfl⟩
  | cons c rest ih =>
    obtain ⟨vals, hv⟩ := ih (fun d hd => h d (by simp [hd]))
    refine ⟨alphaRev c :: vals, ?_⟩
    simp only [payloadTo5bits]
    rw [if_neg (h c (by simp)), hv]
    rfl

/-- `pack` always yields 20 bytes. -/
theorem pack_length (a b c d e f : Nat) : (pack a b c d e f).length = 20 := rfl

/-- The Base32 round-trip instantiated at a packed body. -/
theorem b32_round_pack (ms fl te sq sh rd : Nat) (hf : fl < 256) :
    b32decode ((b32encodeAux (pack ms fl te sq sh rd) 0 0).map alphaGet) =
      .ok (pack ms fl te sq sh rd) :=
  b32_round _ _ _ _ _ _ _ _ _ _ _ _ _ _ _ _ _ _ _ _
    (by omega) (by omega) (by omega) (by omega) (by omega) (by omega) (by omega) (by omega) (by omega) (by omega) (by omega) (by omega) (by omega) (by omega) (by omega) (by omega) (by omega) (by omega) (by omega) (by omega)

/-- Every character of an encoded payload is a non-space alphabet character,
distinct from `-` and `_`, fixed by lowercasing, and has a symbol value. -/
theorem payload_chars (src : List Nat) (acc bits : Nat) :
    ∀ c ∈ (b32encodeAux src acc bits).map alphaGet,
      isSpaceByte c = false ∧ c ≠ 45 ∧ c ≠ 95 ∧ c < 256 ∧
        toLowerByte c = c ∧ alphaRev c ≠ 255 := by
  intro c hc
  obtain ⟨v, hv, rfl⟩ := List.mem_map.1 hc
  exact alphaGet_facts v (b32encodeAux_vals src acc bits v hv)

/-- Taking through an appended singleton separator keeps the separator. -/
theorem take_sep1 (l1 l2 : List Nat) (b : Nat) :
    (l1 ++ b :: l2).take (l1.length + 1) = l1 ++ [b] := by
  have h : l1 ++ b :: l2 = (l1 ++ [b]) ++ l2 := by simp
  rw [h, show l1.length + 1 = (l1 ++ [b]).length by simp, List.take_left]

/-- `checksum4Base` succeeds on a generated `pfx_payload` base and returns
four alphabet characters. -/
theorem checksum4Base_some (pfx payload : List Nat)
    (hp95 : ∀ c ∈ pfx, c ≠ 95) (hplen : pfx.length ≠ 0)
    (hv : ∀ c ∈ payload, alphaRev c ≠ 255) :
    ∃ cs, checksum4Base (pfx ++ 95 :: payload) = some cs ∧ cs.length = 4 ∧
      ∀ c ∈ cs, isSpaceByte c = false ∧ c ≠ 45 ∧ c ≠ 95 ∧ c < 256 ∧
        toLowerByte c = c ∧ alphaRev c ≠ 255 := by
  have hvlow : ∀ c ∈ payload.map toLowerByte, alphaRev c ≠ 255 := by
    intro c hc
    obtain ⟨d, hd, rfl⟩ := List.mem_map.1 hc
    rw [alphaRev_toLower]
    exact hv d hd
  obtain ⟨vals, hvals⟩ := payloadTo5bits_some _ hvlow
  simp only [checksum4Base, indexByte_sep pfx payload 95 hp95, hplen,
    if_false, take_sep1, drop_sep, hvals]
  refine ⟨_, ⟨rfl, rfl, ?_⟩⟩
  intro c hc
  simp only [List.mem_cons, List.not_mem_nil, or_false] at hc
  rcases hc with rfl | rfl | rfl | rfl
  all_goals exact alphaGet_facts _ (Nat.mod_lt _ (by norm_num))

/-- `parseBase` recovers the packed fields from a generated
`pfx_payload` string. -/
theorem parseBase_gen (pfx : List Nat) (ms fl te sq12 sh rd60 : Nat)
    (hp : pfxOk pfx = true) (hms : ms < 2 ^ 48) (hf : fl < 2 ^ 8)
    (ht : te < 2 ^ 16) (hs12 : sq12 < 2 ^ 12) (hsh : sh < 2 ^ 16)
    (hr60 : rd60 < 2 ^ 60) :
    parseBase
        (pfx ++ 95 :: (b32encodeAux (pack ms fl te sq12 sh rd60) 0 0).map alphaGet) =
      .ok ⟨pfx, (ms : Int) + epoch2020, fl, te, sq12, sh, rd60⟩ := by
  have hchars := payload_chars (pack ms fl te sq12 sh rd60) 0 0
  have hplen : ((b32encodeAux (pack ms fl te sq12 sh rd60) 0 0).map alphaGet).length = 32 :=
    b32decode_ok_length _ _ (b32_round_pack ms fl te sq12 sh rd60 hf)
  have h95 : ∀ c ∈ pfx, c ≠ 95 :=
    fun c hc => (pfxByte_facts c (pfxOk_chars pfx hp c hc)).2.2.1
  have hlen0 : ¬ (pfx.length = 0) := by
    have := pfxOk_length pfx hp
    omega
  have hval : ∀ c ∈ (b32encodeAux (pack ms fl te sq12 sh rd60) 0 0).map alphaGet,
      alphaRev c ≠ 255 := fun c hc => (hchars c hc).2.2.2.2.2
  simp only [parseBase, indexByte_sep pfx _ 95 h95, hlen0, if_false,
    take_sep, drop_sep, hp, hplen, firstInvalidIdx_none _ hval,
    b32_round_pack ms fl te sq12 sh rd60 hf,
    unpack_pack_eq ms fl te sq12 sh rd60 hms hf ht hs12 hsh hr60]
  simp

/-- Claim C1: Generate/parse field round-trip: for every valid prefix, every
time at or after the 2020 epoch within the 48-bit shifted range, and every
(suitably typed) flags, tenant, seq, shard and random, `NewFromParts`
succeeds — with and without checksum — and `Parse` of the result returns
exactly the prefix, time, flags, tenant, `seq % 4096`, shard and
`random % 2^60`. -/
theorem generate_parse_round_trip (c : Components) (wc : Bool)
    (hp : pfxOk c.Pfx = true)
    (hT1 : epoch2020 ≤ c.TimeMs) (hT2 : c.TimeMs < epoch2020 + 2 ^ 48)
    (hf : c.Flags < 2 ^ 8) (ht : c.Tenant < 2 ^ 16) (hs : c.Seq < 2 ^ 16)
    (hsh : c.Shard < 2 ^ 16) (hr : c.Random60 < 2 ^ 64) :
    ∃ s, NewFromParts c wc = some s ∧
      Parse s = .ok ⟨c.Pfx, c.TimeMs, c.Flags, c.Tenant, c.Seq % 4096, c.Shard,
        c.Random60 % 2 ^ 60⟩ := by
  have hms : (c.TimeMs - epoch2020).toNat < 2 ^ 48 := by omega
  have hsq : c.Seq % 4096 < 2 ^ 12 := by omega
  have hrd : c.Random60 % 2 ^ 60 < 2 ^ 60 := by omega
  have hchars := payload_chars (pack (c.TimeMs - epoch2020).toNat c.Flags c.Tenant (c.Seq % 4096) c.Shard (c.Random60 % 2 ^ 60)) 0 0
  have h95 : ∀ x ∈ c.Pfx, x ≠ 95 :=
    fun x hx => (pfxByte_facts x (pfxOk_chars _ hp x hx)).2.2.1
  have hlen0 : ¬ (c.Pfx.length = 0) := by
    have := pfxOk_length _ hp
    omega
  have hval : ∀ x ∈ (b32encodeAux (pack (c.TimeMs - epoch2020).toNat c.Flags c.Tenant (c.Seq % 4096) c.Shard (c.Random60 % 2 ^ 60)) 0 0).map alphaGet, alphaRev x ≠ 255 :=
    fun x hx => (hchars x hx).2.2.2.2.2
  have hspace : ∀ x ∈ c.Pfx ++ 95 :: (b32encodeAux (pack (c.TimeMs - epoch2020).toNat c.Flags c.Tenant (c.Seq % 4096) c.Shard (c.Random60 % 2 ^ 60)) 0 0).map alphaGet, isSpaceByte x = false := by
    intro x hx
    rcases List.mem_append.1 hx with hx | hx
    · exact (pfxByte_facts x (pfxOk_chars _ hp x hx)).1
    · rcases List.mem_cons.1 hx with rfl | hx
      · rfl
      · exact (hchars x hx).1
  have h45 : ∀ x ∈ c.Pfx ++ 95 :: (b32encodeAux (pack (c.TimeMs - epoch2020).toNat c.Flags c.Tenant (c.Seq % 4096) c.Shard (c.Random60 % 2 ^ 60)) 0 0).map alphaGet, x ≠ 45 := by
    intro x hx
    rcases List.mem_append.1 hx with hx | hx
    · exact (pfxByte_facts x (pfxOk_chars _ hp x hx)).2.1
    · rcases List.mem_cons.1 hx with rfl | hx
      · decide
      · exact (hchars x hx).2.1
  have hbase := parseBase_gen c.Pfx (c.TimeMs - epoch2020).toNat c.Flags c.Tenant (c.Seq % 4096)
    c.Shard (c.Random60 % 2 ^ 60) hp hms hf ht hsq hsh hrd
  have hT : (((c.TimeMs - epoch2020).toNat : Int)) + epoch2020 = c.TimeMs := by omega
  rw [hT] at hbase
  cases wc with
  | false =>
    refine ⟨c.Pfx ++ 95 :: (b32encodeAux (pack (c.TimeMs - epoch2020).toNat c.Flags c.Tenant (c.Seq % 4096) c.Shard (c.Random60 % 2 ^ 60)) 0 0).map alphaGet, ?_, ?_⟩
    · simp [NewFromParts, hp, hT1, pack_length, b32encode]
    · have htrim := trimSpace_no _ hspace
      have hno := lastIndexByte_none _ 45 h45
      simp only [Parse, htrim, hno]
      exact hbase
  | true =>
    obtain ⟨cs, hcs, hcslen, hcsf⟩ := checksum4Base_some c.Pfx ((b32encodeAux (pack (c.TimeMs - epoch2020).toNat c.Flags c.Tenant (c.Seq % 4096) c.Shard (c.Random60 % 2 ^ 60)) 0 0).map alphaGet) h95 hlen0 hval
    have hspace2 : ∀ x ∈ (c.Pfx ++ 95 :: (b32encodeAux (pack (c.TimeMs - epoch2020).toNat c.Flags c.Tenant (c.Seq % 4096) c.Shard (c.Random60 % 2 ^ 60)) 0 0).map alphaGet) ++ 45 :: cs, isSpaceByte x = false := by
      intro x hx
      rcases List.mem_append.1 hx with hx | hx
      · exact hspace x hx
      · rcases List.mem_cons.1 hx with rfl | hx
        · rfl
        · exact (hcsf x hx).1
    have h45cs : ∀ x ∈ cs, x ≠ 45 := fun x hx => (hcsf x hx).2.1
    refine ⟨(c.Pfx ++ 95 :: (b32encodeAux (pack (c.TimeMs - epoch2020).toNat c.Flags c.Tenant (c.Seq % 4096) c.Shard (c.Random60 % 2 ^ 60)) 0 0).map alphaGet) ++ 45 :: cs, ?_, ?_⟩
    · have hcs2 := hcs
      norm_num at hcs2
      simp [NewFromParts, hp, hT1, pack_length, b32encode, hcs, hcs2]
    · have htrim := trimSpace_no _ hspace2
      have hlast := lastIndexByte_sep _ cs 45 h45 h45cs
      simp only [Parse, htrim, hlast, take_sep, drop_sep, hcs, hcslen,
        equalFold_refl]
      simpa using hbase

/-- Witness for C1 at the conformance-vector fields (both checksum modes). -/
theorem generate_parse_round_trip_witness :
    (∃ s, NewFromParts vecComponents true = some s ∧
      Parse s = .ok ⟨vecComponents.Pfx, vecComponents.TimeMs, vecComponents.Flags,
        vecComponents.Tenant, vecComponents.Seq % 4096, vecComponents.Shard,
        vecComponents.Random60 % 2 ^ 60⟩) ∧
    (∃ s, NewFromParts vecComponents false = some s ∧
      Parse s = .ok ⟨vecComponents.Pfx, vecComponents.TimeMs, vecComponents.Flags,
        vecComponents.Tenant, vecComponents.Seq % 4096, vecComponents.Shard,
        vecComponents.Random60 % 2 ^ 60⟩) :=
  ⟨generate_parse_round_trip vecComponents true (by decide) (by decide) (by decide)
      (by decide) (by decide) (by decide) (by decide) (by decide),
   generate_parse_round_trip vecComponents false (by decide) (by decide) (by decide)
      (by decide) (by decide) (by decide) (by decide) (by decide)⟩

/-- Byte-by-byte (Go string) comparison: `bytesLt s t` is true when `s`
sorts strictly before `t`. -/
def bytesLt : List Nat → List Nat → Bool
  | [], [] => false
  | [], _ :: _ => true
  | _ :: _, [] => false
  | a :: as, b :: bs => if a < b then true else if b < a then false else bytesLt as bs

/-- The base-`B` value of a digit string, most significant first. -/
def valB (B : Nat) (l : List Nat) : Nat := l.foldl (fun x d => x * B + d) 0

/-- Shifting the accumulator out of `valB`'s fold. -/
theorem valB_go (B : Nat) (l : List Nat) :
    ∀ a, l.foldl (fun x d => x * B + d) a =
      a * B ^ l.length + l.foldl (fun x d => x * B + d) 0 := by
  induction l with
  | nil => intro a; simp
  | cons d l ih =>
    intro a
    simp only [List.foldl_cons, List.length_cons]
    rw [ih (a * B + d), ih (0 * B + d)]
    ring

/-- Peeling the leading digit off `valB`. -/
theorem valB_cons (B a : Nat) (l : List Nat) :
    valB B (a :: l) = a * B ^ l.length + valB B l := by
  simp only [valB, List.foldl_cons]
  rw [valB_go B l (0 * B + a)]
  ring

/-- A digit string's value is below `B ^ length`. -/
theorem valB_lt (B : Nat) : ∀ l : List Nat, (∀ d ∈ l, d < B) →
    valB B l < B ^ l.length := by
  intro l
  induction l with
  | nil => intro _; simp [valB]
  | cons a as ih =>
    intro h
    rw [valB_cons, List.length_cons]
    have ha : a < B := h a (by simp)
    have hrec : valB B as < B ^ as.length := ih (fun d hd => h d (by simp [hd]))
    calc a * B ^ as.length + valB B as
        < a * B ^ as.length + B ^ as.length := Nat.add_lt_add_left hrec _
      _ = (a + 1) * B ^ as.length := by ring
      _ ≤ B * B ^ as.length := Nat.mul_le_mul_right _ ha
      _ = B ^ (as.length + 1) := by ring

/-- `valB` over an append: the head shifts by the tail's width. -/
theorem valB_append (B : Nat) (l1 l2 : List Nat) :
    valB B (l1 ++ l2) = valB B l1 * B ^ l2.length + valB B l2 := by
  simp only [valB, List.foldl_append]
  rw [valB_go B l2 (List.foldl (fun x d => x * B + d) 0 l1)]

/-- On equal-length in-range digit strings, byte-by-byte comparison agrees
with comparison of the base-`B` values. -/
theorem bytesLt_iff_val (B : Nat) : ∀ xs ys : List Nat, xs.length = ys.length →
    (∀ d ∈ xs, d < B) → (∀ d ∈ ys, d < B) →
    (bytesLt xs ys = true ↔ valB B xs < valB B ys) := by
  intro xs
  induction xs with
  | nil =>
    intro ys hlen _ _
    cases ys with
    | nil => simp [bytesLt, valB]
    | cons b bs => simp at hlen
  | cons a as ih =>
    intro ys hlen hxa hya
    cases ys with
    | nil => simp at hlen
    | cons b bs =>
      have hlen' : as.length = bs.length := by simpa using hlen
      have hva : valB B as < B ^ as.length :=
        valB_lt B as (fun d hd => hxa d (by simp [hd]))
      have hvb : valB B bs < B ^ bs.length :=
        valB_lt B bs (fun d hd => hya d (by simp [hd]))
      rw [valB_cons, valB_cons, hlen']
      rcases Nat.lt_trichotomy a b with h | h | h
      · have hlhs : bytesLt (a :: as) (b :: bs) = true := by
          simp [bytesLt, h]
        rw [hlhs]
        simp only [true_iff]
        calc a * B ^ bs.length + valB B as
            < a * B ^ bs.length + B ^ bs.length :=
              Nat.add_lt_add_left (hlen' ▸ hva) _
          _ = (a + 1) * B ^ bs.length := by ring
          _ ≤ b * B ^ bs.length := Nat.mul_le_mul_right _ h
          _ ≤ b * B ^ bs.length + valB B bs := Nat.le_add_right _ _
      · subst h
        have hlhs : bytesLt (a :: as) (a :: bs) = bytesLt as bs := by
          simp [bytesLt]
        rw [hlhs, Nat.add_lt_add_iff_left]
        exact ih bs hlen' (fun d hd => hxa d (by simp [hd]))
          (fun d hd => hya d (by simp [hd]))
      · have hlhs : bytesLt (a :: as) (b :: bs) = false := by
          simp [bytesLt, h, Nat.lt_asymm h]
        rw [hlhs]
        simp only [Bool.false_eq_true, false_iff, Nat.not_lt]
        calc b * B ^ bs.length + valB B bs
            ≤ b * B ^ bs.length + B ^ bs.length := Nat.le_of_lt (Nat.add_lt_add_left hvb _)
          _ = (b + 1) * B ^ bs.length := by ring
          _ ≤ a * B ^ bs.length := Nat.mul_le_mul_right _ h
          _ ≤ a * B ^ bs.length + valB B as := Nat.le_add_right _ _

/-- The alphabet is strictly monotone on 5-bit values. -/
theorem alphaGet_lt_iff : ∀ a, a < 32 → ∀ b, b < 32 →
    (alphaGet a < alphaGet b ↔ a < b) := by decide

/-- Mapping through the (monotone) alphabet preserves byte comparison. -/
theorem bytesLt_map_alphaGet : ∀ xs ys : List Nat, (∀ d ∈ xs, d < 32) →
    (∀ d ∈ ys, d < 32) →
    bytesLt (xs.map alphaGet) (ys.map alphaGet) = bytesLt xs ys := by
  intro xs
  induction xs with
  | nil =>
    intro ys _ _
    cases ys <;> simp [bytesLt]
  | cons a as ih =>
    intro ys hx hy
    cases ys with
    | nil => simp [bytesLt]
    | cons b bs =>
      have ha := hx a (by simp)
      have hb := hy b (by simp)
      simp only [List.map_cons, bytesLt]
      rcases Nat.lt_trichotomy a b with h | h | h
      · rw [if_pos ((alphaGet_lt_iff a ha b hb).2 h), if_pos h]
      · subst h
        rw [if_neg (by simp), if_neg (by simp), if_neg (by simp),
          if_neg (by simp)]
        exact ih bs (fun d hd => hx d (by simp [hd]))
          (fun d hd => hy d (by simp [hd]))
      · rw [if_neg (by rw [alphaGet_lt_iff a ha b hb]; omega),
          if_pos ((alphaGet_lt_iff b hb a ha).2 h), if_neg (by omega),
          if_pos h]

/-- Byte comparison ignores a shared prefix. -/
theorem bytesLt_append_left : ∀ p xs ys : List Nat,
    bytesLt (p ++ xs) (p ++ ys) = bytesLt xs ys := by
  intro p
  induction p with
  | nil => intro xs ys; rfl
  | cons c cs ih =>
    intro xs ys
    simp only [List.cons_append, bytesLt, Nat.lt_irrefl, if_false, List.append_eq, ih]

/-- Every byte of a packed body is below 256 (given 8-bit flags). -/
theorem pack_bytes_lt (ms fl te sq sh rd : Nat) (hf : fl < 256) :
    ∀ x ∈ pack ms fl te sq sh rd, x < 256 := by
  intro x hx
  simp only [pack, List.mem_cons, List.not_mem_nil, or_false] at hx
  rcases hx with rfl|rfl|rfl|rfl|rfl|rfl|rfl|rfl|rfl|rfl|rfl|rfl|rfl|rfl|rfl|rfl|rfl|rfl|rfl|rfl <;> omega

/-- The encoded digit string of a packed body has 32 digits. -/
theorem encode_pack_digits_length (ms fl te sq sh rd : Nat) (hf : fl < 256) :
    (b32encodeAux (pack ms fl te sq sh rd) 0 0).length = 32 := by
  have h := b32decode_ok_length _ _ (b32_round_pack ms fl te sq sh rd hf)
  simpa using h

/-- The base-256 value of a packed body is the concatenated field value. -/
theorem val256_pack (ms fl te sq sh rd : Nat)
    (hms : ms < 2 ^ 48) (hf : fl < 2 ^ 8) (ht : te < 2 ^ 16) (hs : sq < 2 ^ 12)
    (hsh : sh < 2 ^ 16) (hrd : rd < 2 ^ 60) :
    valB 256 (pack ms fl te sq sh rd) =
      ms * 2 ^ 112 + fl * 2 ^ 104 + te * 2 ^ 88 + sq * 2 ^ 76 + sh * 2 ^ 60 + rd := by
  simp only [valB, pack, List.foldl_cons, List.foldl_nil]
  omega

set_option maxHeartbeats 1600000 in
/-- The base-32 value of the emitted digit string equals the base-256 value
of the 20 input bytes. -/
theorem val32_digits (b0 b1 b2 b3 b4 b5 b6 b7 b8 b9 b10 b11 b12 b13 b14 b15 b16 b17 b18 b19 : Nat)
    (h0 : b0 < 256) (h1 : b1 < 256) (h2 : b2 < 256) (h3 : b3 < 256) (h4 : b4 < 256)
    (h5 : b5 < 256) (h6 : b6 < 256) (h7 : b7 < 256) (h8 : b8 < 256) (h9 : b9 < 256)
    (h10 : b10 < 256) (h11 : b11 < 256) (h12 : b12 < 256) (h13 : b13 < 256) (h14 : b14 < 256)
    (h15 : b15 < 256) (h16 : b16 < 256) (h17 : b17 < 256) (h18 : b18 < 256) (h19 : b19 < 256)
    :
    valB 32 (b32encodeAux [b0, b1, b2, b3, b4, b5, b6, b7, b8, b9, b10, b11, b12, b13, b14, b15, b16, b17, b18, b19] 0 0) =
      valB 256 [b0, b1, b2, b3, b4, b5, b6, b7, b8, b9, b10, b11, b12, b13, b14, b15, b16, b17, b18, b19] := by
  rw [b32encodeAux_nf b0 b1 b2 b3 b4 b5 b6 b7 b8 b9 b10 b11 b12 b13 b14 b15 b16 b17 b18 b19 h0 h1 h2 h3 h4 h5 h6 h7 h8 h9 h10 h11 h12 h13 h14 h15 h16 h17 h18 h19]
  rw [show [b0 / 8 % 32, (b0 % 8 * 4 + b1 / 64) % 32, b1 / 2 % 32, (b1 % 2 * 16 + b2 / 16) % 32, (b2 % 16 * 2 + b3 / 128) % 32, b3 / 4 % 32, (b3 % 4 * 8 + b4 / 32) % 32, b4 % 32, b5 / 8 % 32, (b5 % 8 * 4 + b6 / 64) % 32, b6 / 2 % 32, (b6 % 2 * 16 + b7 / 16) % 32, (b7 % 16 * 2 + b8 / 128) % 32, b8 / 4 % 32, (b8 % 4 * 8 + b9 / 32) % 32, b9 % 32, b10 / 8 % 32, (b10 % 8 * 4 + b11 / 64) % 32, b11 / 2 % 32, (b11 % 2 * 16 + b12 / 16) % 32, (b12 % 16 * 2 + b13 / 128) % 32, b13 / 4 % 32, (b13 % 4 * 8 + b14 / 32) % 32, b14 % 32, b15 / 8 % 32, (b15 % 8 * 4 + b16 / 64) % 32, b16 / 2 % 32, (b16 % 2 * 16 + b17 / 16) % 32, (b17 % 16 * 2 + b18 / 128) % 32, b18 / 4 % 32, (b18 % 4 * 8 + b19 / 32) % 32, b19 % 32] =
    [b0 / 8 % 32, (b0 % 8 * 4 + b1 / 64) % 32, b1 / 2 % 32, (b1 % 2 * 16 + b2 / 16) % 32, (b2 % 16 * 2 + b3 / 128) % 32, b3 / 4 % 32, (b3 % 4 * 8 + b4 / 32) % 32, b4 % 32] ++ ([b5 / 8 % 32, (b5 % 8 * 4 + b6 / 64) % 32, b6 / 2 % 32, (b6 % 2 * 16 + b7 / 16) % 32, (b7 % 16 * 2 + b8 / 128) % 32, b8 / 4 % 32, (b8 % 4 * 8 + b9 / 32) % 32, b9 % 32] ++ ([b10 / 8 % 32, (b10 % 8 * 4 + b11 / 64) % 32, b11 / 2 % 32, (b11 % 2 * 16 + b12 / 16) % 32, (b12 % 16 * 2 + b13 / 128) % 32, b13 / 4 % 32, (b13 % 4 * 8 + b14 / 32) % 32, b14 % 32] ++ [b15 / 8 % 32, (b15 % 8 * 4 + b16 / 64) % 32, b16 / 2 % 32, (b16 % 2 * 16 + b17 / 16) % 32, (b17 % 16 * 2 + b18 / 128) % 32, b18 / 4 % 32, (b18 % 4 * 8 + b19 / 32) % 32, b19 % 32])) from rfl]
  rw [valB_append, valB_append, valB_append]
  have hg0 : valB 32 [b0 / 8 % 32, (b0 % 8 * 4 + b1 / 64) % 32, b1 / 2 % 32, (b1 % 2 * 16 + b2 / 16) % 32, (b2 % 16 * 2 + b3 / 128) % 32, b3 / 4 % 32, (b3 % 4 * 8 + b4 / 32) % 32, b4 % 32] = b0 * 2 ^ 32 + b1 * 2 ^ 24 + b2 * 2 ^ 16 + b3 * 2 ^ 8 + b4 := by
    simp only [valB, List.foldl_cons, List.foldl_nil]
    omega
  have hg1 : valB 32 [b5 / 8 % 32, (b5 % 8 * 4 + b6 / 64) % 32, b6 / 2 % 32, (b6 % 2 * 16 + b7 / 16) % 32, (b7 % 16 * 2 + b8 / 128) % 32, b8 / 4 % 32, (b8 % 4 * 8 + b9 / 32) % 32, b9 % 32] = b5 * 2 ^ 32 + b6 * 2 ^ 24 + b7 * 2 ^ 16 + b8 * 2 ^ 8 + b9 := by
    simp only [valB, List.foldl_cons, List.foldl_nil]
    omega
  have hg2 : valB 32 [b10 / 8 % 32, (b10 % 8 * 4 + b11 / 64) % 32, b11 / 2 % 32, (b11 % 2 * 16 + b12 / 16) % 32, (b12 % 16 * 2 + b13 / 128) % 32, b13 / 4 % 32, (b13 % 4 * 8 + b14 / 32) % 32, b14 % 32] = b10 * 2 ^ 32 + b11 * 2 ^ 24 + b12 * 2 ^ 16 + b13 * 2 ^ 8 + b14 := by
    simp only [valB, List.foldl_cons, List.foldl_nil]
    omega
  have hg3 : valB 32 [b15 / 8 % 32, (b15 % 8 * 4 + b16 / 64) % 32, b16 / 2 % 32, (b16 % 2 * 16 + b17 / 16) % 32, (b17 % 16 * 2 + b18 / 128) % 32, b18 / 4 % 32, (b18 % 4 * 8 + b19 / 32) % 32, b19 % 32] = b15 * 2 ^ 32 + b16 * 2 ^ 24 + b17 * 2 ^ 16 + b18 * 2 ^ 8 + b19 := by
    simp only [valB, List.foldl_cons, List.foldl_nil]
    omega
  rw [hg0, hg1, hg2, hg3]
  simp only [valB, List.foldl_cons, List.foldl_nil, List.length_append,
    List.length_cons, List.length_nil]
  norm_num
  ring

/-- The base-32 value of a packed body's digit string is the concatenated
field value. -/
theorem val32_pack (ms fl te sq sh rd : Nat)
    (hms : ms < 2 ^ 48) (hf : fl < 2 ^ 8) (ht : te < 2 ^ 16) (hs : sq < 2 ^ 12)
    (hsh : sh < 2 ^ 16) (hrd : rd < 2 ^ 60) :
    valB 32 (b32encodeAux (pack ms fl te sq sh rd) 0 0) =
      ms * 2 ^ 112 + fl * 2 ^ 104 + te * 2 ^ 88 + sq * 2 ^ 76 + sh * 2 ^ 60 + rd := by
  have h1 : valB 32 (b32encodeAux (pack ms fl te sq sh rd) 0 0) =
      valB 256 (pack ms fl te sq sh rd) :=
    val32_digits _ _ _ _ _ _ _ _ _ _ _ _ _ _ _ _ _ _ _ _
      (by omega) (by omega) (by omega) (by omega) (by omega)
      (by omega) (by omega) (by omega) (by omega) (by omega)
      (by omega) (by omega) (by omega) (by omega) (by omega)
      (by omega) (by omega) (by omega) (by omega) (by omega)
  rw [h1, val256_pack ms fl te sq sh rd hms hf ht hs hsh hrd]

/-- Byte comparison ignores the shared `pfx_` head of two identifiers. -/
theorem bytesLt_shared_head (p x y : List Nat) (b : Nat) :
    bytesLt (p ++ b :: x) (p ++ b :: y) = bytesLt x y := by
  rw [show p ++ b :: x = (p ++ [b]) ++ x by simp,
    show p ++ b :: y = (p ++ [b]) ++ y by simp, bytesLt_append_left]

/-- `NewFromParts` without checksum yields the explicit `pfx_payload`
string. -/
theorem NewFromParts_false_eq (c : Components) (hp : pfxOk c.Pfx = true)
    (hT1 : epoch2020 ≤ c.TimeMs) :
    NewFromParts c false = some (c.Pfx ++ 95 ::
      (b32encodeAux (pack (c.TimeMs - epoch2020).toNat c.Flags c.Tenant
        (c.Seq % 4096) c.Shard (c.Random60 % 2 ^ 60)) 0 0).map alphaGet) := by
  simp [NewFromParts, hp, hT1, pack_length, b32encode]

/-- First counterexample component for C4: shard 0, maximal random. -/
def cexA : Components := ⟨[116, 116], epoch2020, 0, 5, 7, 0, 2 ^ 60 - 1⟩

/-- Second counterexample component for C4: shard 1, random 0. -/
def cexB : Components := ⟨[116, 116], epoch2020, 0, 5, 7, 1, 0⟩

/-- Counterexample to C4 as stated: two identifiers equal in time, flags,
tenant and seq do not sort by random — the identifier with the larger
random sorts first because its shard is smaller; shard sits between seq and
random in the body. -/
theorem seq_random_sort_counterexample :
    NewFromParts cexA false = some [116, 116, 95, 48, 48, 48, 48, 48, 48, 48, 48, 48, 48, 48, 48, 48, 49, 56, 48, 101, 48, 48, 48, 122, 122, 122, 122, 122, 122, 122, 122, 122, 122, 122, 122] ∧
    NewFromParts cexB false = some [116, 116, 95, 48, 48, 48, 48, 48, 48, 48, 48, 48, 48, 48, 48, 48, 49, 56, 48, 101, 48, 48, 49, 48, 48, 48, 48, 48, 48, 48, 48, 48, 48, 48, 48] ∧
    cexA.TimeMs = cexB.TimeMs ∧ cexA.Flags = cexB.Flags ∧
    cexA.Tenant = cexB.Tenant ∧ cexA.Seq = cexB.Seq ∧
    cexB.Random60 % 2 ^ 60 < cexA.Random60 % 2 ^ 60 ∧
    bytesLt [116, 116, 95, 48, 48, 48, 48, 48, 48, 48, 48, 48, 48, 48, 48, 48, 49, 56, 48, 101, 48, 48, 48, 122, 122, 122, 122, 122, 122, 122, 122, 122, 122, 122, 122]
      [116, 116, 95, 48, 48, 48, 48, 48, 48, 48, 48, 48, 48, 48, 48, 48, 49, 56, 48, 101, 48, 48, 49, 48, 48, 48, 48, 48, 48, 48, 48, 48, 48, 48, 48] = true := by
  refine ⟨by decide, by decide, by decide, by decide, by decide, by decide,
    by decide, by decide⟩

set_option maxHeartbeats 800000 in
/-- Claim C4 (amended: between `seq` and `random` the layout compares
`shard`, so equal-seq identifiers sort by shard before random): byte-by-byte
comparison of packed bodies is comparison of the field tuple in priority
order; same-prefix checksum-free identifiers with `t1 < t2` sort strictly
in time order; and identifiers equal in time, flags, tenant and shard sort
by seq, then random. -/
theorem k_sortable_ordering :
    (∀ ms1 fl1 te1 sq1 sh1 rd1 ms2 fl2 te2 sq2 sh2 rd2 : Nat,
      ms1 < 2 ^ 48 → fl1 < 2 ^ 8 → te1 < 2 ^ 16 → sq1 < 2 ^ 12 → sh1 < 2 ^ 16 →
      rd1 < 2 ^ 60 → ms2 < 2 ^ 48 → fl2 < 2 ^ 8 → te2 < 2 ^ 16 → sq2 < 2 ^ 12 →
      sh2 < 2 ^ 16 → rd2 < 2 ^ 60 →
      (bytesLt (pack ms1 fl1 te1 sq1 sh1 rd1) (pack ms2 fl2 te2 sq2 sh2 rd2) = true ↔
        (ms1 < ms2 ∨ (ms1 = ms2 ∧ (fl1 < fl2 ∨ (fl1 = fl2 ∧ (te1 < te2 ∨ (te1 = te2 ∧
          (sq1 < sq2 ∨ (sq1 = sq2 ∧ (sh1 < sh2 ∨ (sh1 = sh2 ∧ rd1 < rd2)))))))))))) ∧
    (∀ c1 c2 : Components,
      pfxOk c1.Pfx = true → c1.Pfx = c2.Pfx →
      epoch2020 ≤ c1.TimeMs → c1.TimeMs < epoch2020 + 2 ^ 48 →
      epoch2020 ≤ c2.TimeMs → c2.TimeMs < epoch2020 + 2 ^ 48 →
      c1.Flags < 2 ^ 8 → c2.Flags < 2 ^ 8 →
      c1.Tenant < 2 ^ 16 → c2.Tenant < 2 ^ 16 →
      c1.Shard < 2 ^ 16 → c2.Shard < 2 ^ 16 →
      c1.TimeMs < c2.TimeMs →
      ∃ s1 s2, NewFromParts c1 false = some s1 ∧ NewFromParts c2 false = some s2 ∧
        bytesLt s1 s2 = true) ∧
    (∀ c1 c2 : Components,
      pfxOk c1.Pfx = true → c1.Pfx = c2.Pfx →
      epoch2020 ≤ c1.TimeMs → c1.TimeMs < epoch2020 + 2 ^ 48 →
      epoch2020 ≤ c2.TimeMs → c2.TimeMs < epoch2020 + 2 ^ 48 →
      c1.Flags < 2 ^ 8 → c2.Flags < 2 ^ 8 →
      c1.Tenant < 2 ^ 16 → c2.Tenant < 2 ^ 16 →
      c1.Shard < 2 ^ 16 → c2.Shard < 2 ^ 16 →
      c1.TimeMs = c2.TimeMs → c1.Flags = c2.Flags → c1.Tenant = c2.Tenant →
      c1.Shard = c2.Shard →
      ∃ s1 s2, NewFromParts c1 false = some s1 ∧ NewFromParts c2 false = some s2 ∧
        (bytesLt s1 s2 = true ↔
          (c1.Seq % 4096 < c2.Seq % 4096 ∨
            (c1.Seq % 4096 = c2.Seq % 4096 ∧
              c1.Random60 % 2 ^ 60 < c2.Random60 % 2 ^ 60)))) := by
  refine ⟨?_, ?_, ?_⟩
  · intro ms1 fl1 te1 sq1 sh1 rd1 ms2 fl2 te2 sq2 sh2 rd2
      hms1 hf1 ht1 hs1 hsh1 hrd1 hms2 hf2 ht2 hs2 hsh2 hrd2
    rw [bytesLt_iff_val 256 _ _ (by rw [pack_length, pack_length])
      (pack_bytes_lt _ _ _ _ _ _ hf1) (pack_bytes_lt _ _ _ _ _ _ hf2)]
    rw [val256_pack ms1 fl1 te1 sq1 sh1 rd1 hms1 hf1 ht1 hs1 hsh1 hrd1,
      val256_pack ms2 fl2 te2 sq2 sh2 rd2 hms2 hf2 ht2 hs2 hsh2 hrd2]
    omega
  · intro c1 c2 hp1 hpfx hT1a hT1b hT2a hT2b hf1 hf2 ht1 ht2 hsh1 hsh2 hlt
    refine ⟨_, _, NewFromParts_false_eq c1 hp1 hT1a,
      NewFromParts_false_eq c2 (by rw [← hpfx]; exact hp1) hT2a, ?_⟩
    rw [← hpfx, bytesLt_shared_head, bytesLt_map_alphaGet _ _
        (b32encodeAux_vals _ 0 0) (b32encodeAux_vals _ 0 0),
      bytesLt_iff_val 32 _ _
        (by rw [encode_pack_digits_length _ _ _ _ _ _ hf1,
          encode_pack_digits_length _ _ _ _ _ _ hf2])
        (b32encodeAux_vals _ 0 0) (b32encodeAux_vals _ 0 0),
      val32_pack _ _ _ _ _ _ (by omega) hf1 ht1 (by omega) hsh1 (by omega),
      val32_pack _ _ _ _ _ _ (by omega) hf2 ht2 (by omega) hsh2 (by omega)]
    omega
  · intro c1 c2 hp1 hpfx hT1a hT1b hT2a hT2b hf1 hf2 ht1 ht2 hsh1 hsh2
      hteq hfeq htnq hshq
    refine ⟨_, _, NewFromParts_false_eq c1 hp1 hT1a,
      NewFromParts_false_eq c2 (by rw [← hpfx]; exact hp1) hT2a, ?_⟩
    rw [← hpfx, bytesLt_shared_head, bytesLt_map_alphaGet _ _
        (b32encodeAux_vals _ 0 0) (b32encodeAux_vals _ 0 0),
      bytesLt_iff_val 32 _ _
        (by rw [encode_pack_digits_length _ _ _ _ _ _ hf1,
          encode_pack_digits_length _ _ _ _ _ _ hf2])
        (b32encodeAux_vals _ 0 0) (b32encodeAux_vals _ 0 0),
      val32_pack _ _ _ _ _ _ (by omega) hf1 ht1 (by omega) hsh1 (by omega),
      val32_pack _ _ _ _ _ _ (by omega) hf2 ht2 (by omega) hsh2 (by omega)]
    omega

/-- Witness for the amended C4: one millisecond apart, the earlier
identifier sorts first. -/
theorem k_sortable_ordering_witness :
    ∃ s1 s2,
      NewFromParts ⟨[116, 116], epoch2020, 0, 0, 0, 0, 0⟩ false = some s1 ∧
      NewFromParts ⟨[116, 116], epoch2020 + 1, 0, 0, 0, 0, 0⟩ false = some s2 ∧
      bytesLt s1 s2 = true :=
  k_sortable_ordering.2.1 ⟨[116, 116], epoch2020, 0, 0, 0, 0, 0⟩
    ⟨[116, 116], epoch2020 + 1, 0, 0, 0, 0, 0⟩ (by decide) rfl
    (by decide) (by decide) (by decide) (by decide) (by decide) (by decide)
    (by decide) (by decide) (by decide) (by decide) (by decide)

/-- The five conditional generator XORs of one polymod step as a function of
the top bits `b = chk >> 25`. -/
def genXor (b : Nat) : Nat :=
  (if b % 2 = 1 then 0x3b6a57b2 else 0) ^^^
  (if b / 2 % 2 = 1 then 0x26508e6d else 0) ^^^
  (if b / 4 % 2 = 1 then 0x1ea119fa else 0) ^^^
  (if b / 8 % 2 = 1 then 0x3d4233dd else 0) ^^^
  (if b / 16 % 2 = 1 then 0x2a1462b3 else 0)

/-- One polymod step is the shift, XOR the value, XOR the generator mask of
the top bits. -/
theorem bech32PolymodStep_eq (chk v : Nat) (hc : chk < 2 ^ 30) :
    bech32PolymodStep chk v =
      (chk % 33554432 * 32 ^^^ v) ^^^ genXor (chk / 33554432) := by
  unfold bech32PolymodStep genXor
  have hb : chk / 33554432 < 32 := by omega
  generalize hg : chk / 33554432 = b at hb ⊢
  interval_cases b <;> simp [Nat.xor_assoc]

/-- `%` by a power of two distributes over XOR. -/
theorem mod_two_pow_xor (x y n : Nat) :
    (x ^^^ y) % 2 ^ n = x % 2 ^ n ^^^ y % 2 ^ n := by
  apply Nat.eq_of_testBit_eq
  intro i
  simp only [Nat.testBit_mod_two_pow, Nat.testBit_xor]
  by_cases h : i < n <;> simp [h]

/-- `/` by a power of two distributes over XOR. -/
theorem div_two_pow_xor (x y n : Nat) :
    (x ^^^ y) / 2 ^ n = x / 2 ^ n ^^^ y / 2 ^ n := by
  rw [← Nat.shiftRight_eq_div_pow, ← Nat.shiftRight_eq_div_pow,
    ← Nat.shiftRight_eq_div_pow]
  apply Nat.eq_of_testBit_eq
  intro i
  simp [Nat.testBit_shiftRight, Nat.testBit_xor]

/-- `* 32` distributes over XOR. -/
theorem mul32_xor (x y : Nat) : (x ^^^ y) * 32 = x * 32 ^^^ y * 32 := by
  have h : ∀ z : Nat, z * 32 = z <<< 5 := fun z => by
    rw [Nat.shiftLeft_eq]
  rw [h, h, h]
  apply Nat.eq_of_testBit_eq
  intro i
  simp only [Nat.testBit_shiftLeft, Nat.testBit_xor]
  by_cases hi : 5 ≤ i <;> simp [hi]

/-- The generator mask distributes over XOR of 5-bit top values. -/
theorem genXor_xor : ∀ b1, b1 < 32 → ∀ b2, b2 < 32 →
    genXor (b1 ^^^ b2) = genXor b1 ^^^ genXor b2 := by decide

/-- XOR of 5-bit values is a 5-bit value. -/
theorem xor_lt_32 : ∀ v, v < 32 → ∀ w, w < 32 → v ^^^ w < 32 := by decide

/-- The generator mask always stays below `2^30`. -/
theorem genXor_lt (b : Nat) : genXor b < 2 ^ 30 := by
  unfold genXor
  split_ifs <;> decide

/-- One polymod step keeps the accumulator below `2^30`, whatever the
incoming value. -/
theorem bech32PolymodStep_lt (chk v : Nat) (hv : v < 32) :
    bech32PolymodStep chk v < 2 ^ 30 := by
  unfold bech32PolymodStep
  have h0 : chk % 33554432 * 32 ^^^ v < 2 ^ 30 :=
    Nat.xor_lt_two_pow (by omega) (by omega)
  dsimp only
  split_ifs <;> (repeat first | exact h0 | decide | apply Nat.xor_lt_two_pow)

/-- The polymod step on XORed inputs splits by linearity. -/
theorem bech32PolymodStep_xor (c d v w : Nat) (hc : c < 2 ^ 30) (hd : d < 2 ^ 30) :
    bech32PolymodStep (c ^^^ d) (v ^^^ w) =
      bech32PolymodStep c v ^^^ bech32PolymodStep d w := by
  rw [bech32PolymodStep_eq (c ^^^ d) (v ^^^ w) (Nat.xor_lt_two_pow hc hd),
    bech32PolymodStep_eq c v hc, bech32PolymodStep_eq d w hd]
  have hmod : (c ^^^ d) % 33554432 = c % 33554432 ^^^ d % 33554432 := by
    have := mod_two_pow_xor c d 25
    norm_num at this
    exact this
  have hdiv : (c ^^^ d) / 33554432 = c / 33554432 ^^^ d / 33554432 := by
    have := div_two_pow_xor c d 25
    norm_num at this
    exact this
  have hgen : genXor (c / 33554432 ^^^ d / 33554432) =
      genXor (c / 33554432) ^^^ genXor (d / 33554432) :=
    genXor_xor _ (by omega) _ (by omega)
  rw [hmod, hdiv, mul32_xor, hgen]
  have haux : ∀ a b e f g h : Nat,
      ((a ^^^ b) ^^^ (e ^^^ f)) ^^^ (g ^^^ h) =
        ((a ^^^ e) ^^^ g) ^^^ ((b ^^^ f) ^^^ h) := by
    intro a b e f g h
    apply Nat.eq_of_testBit_eq
    intro i
    simp only [Nat.testBit_xor]
    generalize a.testBit i = x1
    generalize b.testBit i = x2
    generalize e.testBit i = x3
    generalize f.testBit i = x4
    generalize g.testBit i = x5
    generalize h.testBit i = x6
    cases x1 <;> cases x2 <;> cases x3 <;> cases x4 <;> cases x5 <;>
      cases x6 <;> rfl
  exact haux _ _ _ _ _ _

/-- A pure delta passes one polymod step unchanged except for its own
evolution. -/
def deltaStep (x : Nat) : Nat := bech32PolymodStep x 0

/-- Evolution of a value delta through `n` further polymod steps. -/
def deltaRun (n d : Nat) : Nat := deltaStep^[n] d

/-- A polymod step with a zero accumulator returns the value. -/
theorem bech32PolymodStep_zero (v : Nat) : bech32PolymodStep 0 v = v := by
  simp [bech32PolymodStep]

/-- A delta on the value side only XORs into the step output. -/
theorem bech32PolymodStep_value_delta (c v d : Nat) (hc : c < 2 ^ 30)
    (hd : d < 2 ^ 30) :
    bech32PolymodStep c (v ^^^ d) = bech32PolymodStep c v ^^^ d := by
  have h := bech32PolymodStep_xor c 0 v d hc (by norm_num)
  simpa [bech32PolymodStep_zero] using h

/-- The polymod fold keeps the accumulator below `2^30`. -/
theorem foldl_step_lt : ∀ (ys : List Nat) (c : Nat), c < 2 ^ 30 →
    (∀ v ∈ ys, v < 32) → List.foldl bech32PolymodStep c ys < 2 ^ 30 := by
  intro ys
  induction ys with
  | nil =>
    intro c hc _
    simpa using hc
  | cons y ys ih =>
    intro c hc hv
    simp only [List.foldl_cons]
    exact ih _ (bech32PolymodStep_lt c y (hv y (by simp)))
      (fun v hvv => hv v (by simp [hvv]))

/-- An accumulator delta propagates through the polymod fold independently
of the data, evolving by `deltaRun`. -/
theorem foldl_step_xor : ∀ (ys : List Nat) (c d : Nat), c < 2 ^ 30 →
    d < 2 ^ 30 → (∀ v ∈ ys, v < 32) →
    List.foldl bech32PolymodStep (c ^^^ d) ys =
      List.foldl bech32PolymodStep c ys ^^^ deltaRun ys.length d := by
  intro ys
  induction ys with
  | nil =>
    intro c d _ _ _
    simp [deltaRun]
  | cons y ys ih =>
    intro c d hc hd hv
    simp only [List.foldl_cons, List.length_cons]
    have hy : y < 32 := hv y (by simp)
    have hstep : bech32PolymodStep (c ^^^ d) y =
        bech32PolymodStep c y ^^^ bech32PolymodStep d 0 := by
      have h := bech32PolymodStep_xor c d y 0 hc hd
      simpa using h
    rw [hstep, ih _ _ (bech32PolymodStep_lt c y hy)
      (bech32PolymodStep_lt d 0 (by norm_num))
      (fun v hvv => hv v (by simp [hvv]))]
    rw [deltaRun, deltaRun, Function.iterate_succ_apply]
    rfl

/-- Substituting one 5-bit group in the polymod input XORs the evolved
delta into the result. -/
theorem bech32Polymod_set (xs ys : List Nat) (v v' : Nat)
    (hxs : ∀ u ∈ xs, u < 32) (hys : ∀ u ∈ ys, u < 32)
    (hv : v < 32) (hv' : v' < 32) :
    bech32Polymod (xs ++ v' :: ys) =
      bech32Polymod (xs ++ v :: ys) ^^^ deltaRun ys.length (v ^^^ v') := by
  unfold bech32Polymod
  rw [List.foldl_append, List.foldl_append]
  simp only [List.foldl_cons]
  have hc : List.foldl bech32PolymodStep 1 xs < 2 ^ 30 :=
    foldl_step_lt xs 1 (by norm_num) hxs
  have hδ : v ^^^ v' < 32 := xor_lt_32 v hv v' hv'
  have hv'eq : v' = v ^^^ (v ^^^ v') := by
    rw [← Nat.xor_assoc, Nat.xor_self, Nat.zero_xor]
  rw [show bech32PolymodStep (List.foldl bech32PolymodStep 1 xs) v' =
      bech32PolymodStep (List.foldl bech32PolymodStep 1 xs) v ^^^ (v ^^^ v') by
    conv_lhs => rw [hv'eq]
    exact bech32PolymodStep_value_delta _ v (v ^^^ v') hc (by omega)]
  exact foldl_step_xor ys _ _ (bech32PolymodStep_lt _ v hv) (by omega) hys

/-- Finite detection fact: a nonzero 5-bit delta at distance 6 to 35 from
the end of the polymod input leaves a nonzero trace in the low 20 bits. -/
theorem deltaRun_detect : ∀ k, k < 30 → ∀ d, d < 32 → d ≠ 0 →
    deltaRun (k + 6) d % 2 ^ 20 ≠ 0 := by decide

/-- Finite blindness fact: any delta at distance 4 or 5 (the last two
payload symbols) vanishes from the low 20 bits. -/
theorem deltaRun_blind : ∀ d, d < 32 →
    deltaRun 4 d % 2 ^ 20 = 0 ∧ deltaRun 5 d % 2 ^ 20 = 0 := by decide

/-- The four checksum characters, read MSB-first from the low 20 bits of a
polymod value (source lines 330-335). -/
def cs4 (pm : Nat) : List Nat :=
  [alphaGet (pm / 32768 % 32), alphaGet (pm / 1024 % 32),
   alphaGet (pm / 32 % 32), alphaGet (pm % 32)]

/-- `payloadTo5bits` on a valid payload returns exactly the symbol values. -/
theorem payloadTo5bits_eq_map (l : List Nat) (h : ∀ c ∈ l, alphaRev c ≠ 255) :
    payloadTo5bits l = some (l.map alphaRev) := by
  induction l with
  | nil => rfl
  | cons c rest ih =>
    simp only [payloadTo5bits, List.map_cons]
    rw [if_neg (h c (by simp)), ih (fun d hd => h d (by simp [hd]))]
    rfl

/-- Closed form of `checksum4Base` on a `pfx_payload` base. -/
theorem checksum4Base_eq (pfx payload : List Nat)
    (hp95 : ∀ c ∈ pfx, c ≠ 95) (hplen : pfx.length ≠ 0)
    (hv : ∀ c ∈ payload, alphaRev c ≠ 255) :
    checksum4Base (pfx ++ 95 :: payload) =
      some (cs4 (bech32Polymod
        (hrpExpand ((pfx ++ [95]).map toLowerByte) ++
          payload.map alphaRev ++ [0, 0, 0, 0]) ^^^ 1)) := by
  have hvlow : ∀ c ∈ payload.map toLowerByte, alphaRev c ≠ 255 := by
    intro c hc
    obtain ⟨d, hd, rfl⟩ := List.mem_map.1 hc
    rw [alphaRev_toLower]
    exact hv d hd
  have hmm : (payload.map toLowerByte).map alphaRev = payload.map alphaRev := by
    rw [List.map_map]
    exact List.map_congr_left (fun c _ => alphaRev_toLower c)
  simp only [checksum4Base, indexByte_sep pfx payload 95 hp95, hplen,
    if_false, take_sep1, drop_sep, payloadTo5bits_eq_map _ hvlow, hmm, cs4]

/-- Lowercasing keeps a byte below 256. -/
theorem toLowerByte_lt (b : Nat) (h : b < 256) : toLowerByte b < 256 := by
  unfold toLowerByte
  split <;> omega

/-- All HRP-expanded groups of a byte string are 5-bit values. -/
theorem hrpExpand_vals (s : List Nat) (h : ∀ c ∈ s, c < 256) :
    ∀ u ∈ hrpExpand s, u < 32 := by
  intro u hu
  simp only [hrpExpand, List.mem_append, List.mem_map, List.mem_singleton] at hu
  rcases hu with (⟨c, hc, rfl⟩ | rfl) | ⟨c, hc, rfl⟩
  · have := h c hc
    omega
  · omega
  · have := h c hc
    omega

set_option maxRecDepth 10000 in
/-- A valid byte's symbol value is a 5-bit value. -/
theorem alphaRev_lt_of_valid : ∀ b, b < 256 → alphaRev b ≠ 255 → alphaRev b < 32 := by
  decide

set_option maxRecDepth 10000 in
/-- The alphabet has no repeated characters. -/
theorem alphaGet_inj : ∀ a, a < 32 → ∀ b, b < 32 → alphaGet a = alphaGet b → a = b := by
  decide

/-- Splitting a list at an in-range position. -/
theorem list_split_getD : ∀ (l : List Nat) (j : Nat), j < l.length →
    l = l.take j ++ l.getD j 0 :: l.drop (j + 1) := by
  intro l
  induction l with
  | nil =>
    intro j hj
    simp at hj
  | cons x rest ih =>
    intro j hj
    cases j with
    | zero => simp
    | succ k =>
      simp only [List.take_succ_cons, List.drop_succ_cons, List.getD_cons_succ,
        List.cons_append, List.cons.injEq, true_and]
      exact ih k (by simpa using hj)

/-- Overwriting a position rewrites the list as take-value-drop. -/
theorem list_set_split : ∀ (l : List Nat) (j c : Nat), j < l.length →
    l.set j c = l.take j ++ c :: l.drop (j + 1) := by
  intro l
  induction l with
  | nil =>
    intro j c hj
    simp at hj
  | cons x rest ih =>
    intro j c hj
    cases j with
    | zero => simp
    | succ k =>
      simp only [List.set_cons_succ, List.take_succ_cons, List.drop_succ_cons,
        List.cons_append, List.cons.injEq, true_and]
      exact ih k c (by simpa using hj)

/-- XOR with a value is the identity only for zero. -/
theorem xor_eq_self_iff (x y : Nat) : x ^^^ y = x ↔ y = 0 := by
  constructor
  · intro h
    have h2 := congrArg (fun t => x ^^^ t) h
    simpa [← Nat.xor_assoc] using h2
  · intro h
    simp [h]

/-- Equal checksum character lists force equal low-20-bit polymod values. -/
theorem cs4_eq_low20 (pm pm' : Nat) (h : cs4 pm = cs4 pm') :
    pm % 2 ^ 20 = pm' % 2 ^ 20 := by
  simp only [cs4, List.cons.injEq, and_true] at h
  obtain ⟨h1, h2, h3, h4⟩ := h
  have e1 := alphaGet_inj _ (Nat.mod_lt _ (by norm_num)) _ (Nat.mod_lt _ (by norm_num)) h1
  have e2 := alphaGet_inj _ (Nat.mod_lt _ (by norm_num)) _ (Nat.mod_lt _ (by norm_num)) h2
  have e3 := alphaGet_inj _ (Nat.mod_lt _ (by norm_num)) _ (Nat.mod_lt _ (by norm_num)) h3
  have e4 := alphaGet_inj _ (Nat.mod_lt _ (by norm_num)) _ (Nat.mod_lt _ (by norm_num)) h4
  have hp : (2 : Nat) ^ 20 = 1048576 := rfl
  rw [hp]
  omega

/-- The checksum characters depend only on the low 20 polymod bits. -/
theorem cs4_low20_congr (pm pm' : Nat) (h : pm % 2 ^ 20 = pm' % 2 ^ 20) :
    cs4 pm = cs4 pm' := by
  have hp : (2 : Nat) ^ 20 = 1048576 := rfl
  rw [hp] at h
  have e1 : pm / 32768 % 32 = pm' / 32768 % 32 := by omega
  have e2 : pm / 1024 % 32 = pm' / 1024 % 32 := by omega
  have e3 : pm / 32 % 32 = pm' / 32 % 32 := by omega
  have e4 : pm % 32 = pm' % 32 := by omega
  simp only [cs4, e1, e2, e3, e4]

/-- Checksum characters are fixed by lowercasing. -/
theorem cs4_lower (pm : Nat) : (cs4 pm).map toLowerByte = cs4 pm := by
  have h : ∀ d, d < 32 → toLowerByte (alphaGet d) = alphaGet d :=
    fun d hd => (alphaGet_facts d hd).2.2.2.2.1
  simp only [cs4, List.map_cons, List.map_nil,
    h (pm / 32768 % 32) (Nat.mod_lt _ (by norm_num)),
    h (pm / 1024 % 32) (Nat.mod_lt _ (by norm_num)),
    h (pm / 32 % 32) (Nat.mod_lt _ (by norm_num)),
    h (pm % 32) (Nat.mod_lt _ (by norm_num))]

/-- Distinct checksum character lists also fail the case-folded compare. -/
theorem equalFold_cs4_false (pm pm' : Nat) (h : cs4 pm ≠ cs4 pm') :
    equalFold (cs4 pm) (cs4 pm') = false := by
  simp only [equalFold, cs4_lower]
  exact beq_eq_false_iff_ne.mpr h

set_option maxRecDepth 10000 in
/-- Counterexample to claim C6 as stated: replacing the final payload
character of the known-vector base (an `r`, symbol value 24) by `0`
(symbol value 0) leaves `checksum4Base` unchanged at `9xgg`, so a
single-character substitution that changes the substituted character's
symbol value can keep the 4-character checksum identical. -/
theorem checksum_substitution_counterexample :
    checksum4Base vecBase = some [57, 120, 103, 103] ∧
    checksum4Base (vecBase.take 37 ++ [48]) = some [57, 120, 103, 103] ∧
    vecBase.getD 37 0 = 114 ∧ alphaRev 48 ≠ alphaRev 114 ∧
    (vecBase.take 37 ++ [48]).length = vecBase.length := by
  refine ⟨by decide, by decide, by decide, by decide, by decide⟩

/-- Claim C6 (amended: the checksum keeps only the low 20 bits of the
30-bit polymod, which makes the last two payload symbols invisible): for
a `pfx_payload` base with a 32-character valid payload, substituting one
payload character by a character with a different symbol value changes
the checksum — and the case-folded comparison fails — at payload
positions 0 to 29, while at positions 30 and 31 the checksum is always
unchanged. -/
theorem checksum_substitution (pfx payload : List Nat) (j c' : Nat)
    (hpfx : ∀ c ∈ pfx, c < 256 ∧ c ≠ 95) (hplen : pfx.length ≠ 0)
    (hlen : payload.length = 32)
    (hpc : ∀ x ∈ payload, x < 256 ∧ alphaRev x ≠ 255)
    (hj : j < 32) (hcb : c' < 256) (hcv : alphaRev c' ≠ 255)
    (hne : alphaRev c' ≠ alphaRev (payload.getD j 0)) :
    ∃ cs cs',
      checksum4Base (pfx ++ 95 :: payload) = some cs ∧
      checksum4Base (pfx ++ 95 :: payload.set j c') = some cs' ∧
      (j < 30 → cs ≠ cs' ∧ equalFold cs cs' = false) ∧
      (30 ≤ j → cs = cs') := by
  have hp95 : ∀ c ∈ pfx, c ≠ 95 := fun c hc => (hpfx c hc).2
  have hvpay : ∀ c ∈ payload, alphaRev c ≠ 255 := fun c hc => (hpc c hc).2
  have hvset : ∀ c ∈ payload.set j c', alphaRev c ≠ 255 := by
    intro x hx
    rcases List.mem_or_eq_of_mem_set hx with hx' | rfl
    · exact hvpay x hx'
    · exact hcv
  have hj' : j < payload.length := by omega
  have hb0mem : payload.getD j 0 ∈ payload := by
    rw [List.getD_eq_getElem payload 0 hj']
    exact List.getElem_mem hj'
  have hb0lt : alphaRev (payload.getD j 0) < 32 :=
    alphaRev_lt_of_valid _ (hpc _ hb0mem).1 (hpc _ hb0mem).2
  have hc'lt : alphaRev c' < 32 := alphaRev_lt_of_valid c' hcb hcv
  have hdlt : alphaRev (payload.getD j 0) ^^^ alphaRev c' < 32 :=
    xor_lt_32 _ hb0lt _ hc'lt
  have hHRlt : ∀ u ∈ hrpExpand ((pfx ++ [95]).map toLowerByte), u < 32 := by
    apply hrpExpand_vals
    intro c hc
    obtain ⟨d, hd, rfl⟩ := List.mem_map.1 hc
    rcases List.mem_append.1 hd with hd' | hd'
    · exact toLowerByte_lt d (hpfx d hd').1
    · rw [List.mem_singleton.1 hd']
      decide
  have hmaplt : ∀ (l : List Nat), (∀ x ∈ l, x < 256 ∧ alphaRev x ≠ 255) →
      ∀ u ∈ l.map alphaRev, u < 32 := by
    intro l hl u hu
    obtain ⟨x, hx, rfl⟩ := List.mem_map.1 hu
    exact alphaRev_lt_of_valid x (hl x hx).1 (hl x hx).2
  have hxs : ∀ u ∈ hrpExpand ((pfx ++ [95]).map toLowerByte) ++
      (payload.take j).map alphaRev, u < 32 := by
    intro u hu
    rcases List.mem_append.1 hu with hu | hu
    · exact hHRlt u hu
    · exact hmaplt (payload.take j)
        (fun x hx => hpc x (List.mem_of_mem_take hx)) u hu
  have hys : ∀ u ∈ (payload.drop (j + 1)).map alphaRev ++ [0, 0, 0, 0], u < 32 := by
    intro u hu
    rcases List.mem_append.1 hu with hu | hu
    · exact hmaplt (payload.drop (j + 1))
        (fun x hx => hpc x (List.mem_of_mem_drop hx)) u hu
    · simp only [List.mem_cons, List.not_mem_nil, or_false] at hu
      rcases hu with rfl | rfl | rfl | rfl <;> norm_num
  have h1 : payload.map alphaRev =
      (payload.take j).map alphaRev ++
        alphaRev (payload.getD j 0) :: (payload.drop (j + 1)).map alphaRev := by
    conv_lhs => rw [list_split_getD payload j hj']
    simp only [List.map_append, List.map_cons]
  have h2 : (payload.set j c').map alphaRev =
      (payload.take j).map alphaRev ++
        alphaRev c' :: (payload.drop (j + 1)).map alphaRev := by
    rw [list_set_split payload j c' hj']
    simp only [List.map_append, List.map_cons]
  have hdlen : ((payload.drop (j + 1)).map alphaRev ++ [0, 0, 0, 0]).length
      = 35 - j := by
    simp only [List.length_append, List.length_map, List.length_drop, hlen,
      List.length_cons, List.length_nil]
    omega
  have hpoly : bech32Polymod (hrpExpand ((pfx ++ [95]).map toLowerByte) ++
        (payload.set j c').map alphaRev ++ [0, 0, 0, 0]) =
      bech32Polymod (hrpExpand ((pfx ++ [95]).map toLowerByte) ++
        payload.map alphaRev ++ [0, 0, 0, 0]) ^^^
        deltaRun (35 - j) (alphaRev (payload.getD j 0) ^^^ alphaRev c') := by
    rw [h1, h2]
    have hassoc : ∀ v : Nat,
        hrpExpand ((pfx ++ [95]).map toLowerByte) ++
            ((payload.take j).map alphaRev ++
              v :: (payload.drop (j + 1)).map alphaRev) ++ [0, 0, 0, 0] =
          (hrpExpand ((pfx ++ [95]).map toLowerByte) ++
              (payload.take j).map alphaRev) ++
            v :: ((payload.drop (j + 1)).map alphaRev ++ [0, 0, 0, 0]) := by
      intro v
      simp [List.append_assoc]
    rw [hassoc, hassoc, ← hdlen]
    exact bech32Polymod_set _ _ _ _ hxs hys hb0lt hc'lt
  have hshuffle : ∀ a e : Nat, (a ^^^ e) ^^^ 1 = (a ^^^ 1) ^^^ e := by
    intro a e
    rw [Nat.xor_assoc, Nat.xor_comm e 1, ← Nat.xor_assoc]
  rw [checksum4Base_eq pfx payload hp95 hplen hvpay,
    checksum4Base_eq pfx (payload.set j c') hp95 hplen hvset, hpoly, hshuffle]
  refine ⟨_, _, rfl, rfl, ?_, ?_⟩
  · intro hj30
    have hdne : alphaRev (payload.getD j 0) ^^^ alphaRev c' ≠ 0 := by
      intro h0
      exact hne (Nat.xor_eq_zero.1 h0).symm
    have hE : deltaRun (35 - j)
        (alphaRev (payload.getD j 0) ^^^ alphaRev c') % 2 ^ 20 ≠ 0 := by
      have h35 : 35 - j = (29 - j) + 6 := by omega
      rw [h35]
      exact deltaRun_detect (29 - j) (by omega) _ hdlt hdne
    have hlow : (bech32Polymod (hrpExpand ((pfx ++ [95]).map toLowerByte) ++
          payload.map alphaRev ++ [0, 0, 0, 0]) ^^^ 1) % 2 ^ 20 ≠
        ((bech32Polymod (hrpExpand ((pfx ++ [95]).map toLowerByte) ++
            payload.map alphaRev ++ [0, 0, 0, 0]) ^^^ 1) ^^^
          deltaRun (35 - j)
            (alphaRev (payload.getD j 0) ^^^ alphaRev c')) % 2 ^ 20 := by
      intro heq
      apply hE
      have h2 : (bech32Polymod (hrpExpand ((pfx ++ [95]).map toLowerByte) ++
            payload.map alphaRev ++ [0, 0, 0, 0]) ^^^ 1) % 2 ^ 20 ^^^
          deltaRun (35 - j)
            (alphaRev (payload.getD j 0) ^^^ alphaRev c') % 2 ^ 20 =
          (bech32Polymod (hrpExpand ((pfx ++ [95]).map toLowerByte) ++
            payload.map alphaRev ++ [0, 0, 0, 0]) ^^^ 1) % 2 ^ 20 := by
        rw [← mod_two_pow_xor]
        exact heq.symm
      exact (xor_eq_self_iff _ _).1 h2
    have hcsne : cs4 (bech32Polymod (hrpExpand ((pfx ++ [95]).map toLowerByte) ++
          payload.map alphaRev ++ [0, 0, 0, 0]) ^^^ 1) ≠
        cs4 ((bech32Polymod (hrpExpand ((pfx ++ [95]).map toLowerByte) ++
            payload.map alphaRev ++ [0, 0, 0, 0]) ^^^ 1) ^^^
          deltaRun (35 - j)
            (alphaRev (payload.getD j 0) ^^^ alphaRev c')) :=
      fun hcs => hlow (cs4_eq_low20 _ _ hcs)
    exact ⟨hcsne, equalFold_cs4_false _ _ hcsne⟩
  · intro hj30
    apply cs4_low20_congr
    have hE : deltaRun (35 - j)
        (alphaRev (payload.getD j 0) ^^^ alphaRev c') % 2 ^ 20 = 0 := by
      interval_cases j
      · simpa using (deltaRun_blind _ hdlt).2
      · simpa using (deltaRun_blind _ hdlt).1
    conv_rhs => rw [mod_two_pow_xor]
    rw [hE, Nat.xor_zero]

set_option maxRecDepth 10000 in
/-- Witness for the amended C6 at the known vector: substituting payload
position 0 (a protected position) by `1` changes the checksum. -/
theorem checksum_substitution_witness :
    ∃ cs cs',
      checksum4Base ([111, 114, 100, 101, 114] ++ 95 :: vecBase.drop 6) = some cs ∧
      checksum4Base ([111, 114, 100, 101, 114] ++
        95 :: (vecBase.drop 6).set 0 49) = some cs' ∧
      ((0 : Nat) < 30 → cs ≠ cs' ∧ equalFold cs cs' = false) ∧
      ((30 : Nat) ≤ 0 → cs = cs') :=
  checksum_substitution [111, 114, 100, 101, 114] (vecBase.drop 6) 0 49
    (by decide) (by decide) (by decide) (by decide) (by decide) (by decide)
    (by decide) (by decide)

end Orderly
